import Mathlib

/-!
# Verification of the gradon incremental stats-aggregation engine

Shallow embedding of the core of the `gradon` repository:

* `gradon/stats.py`   — `StatsUpdater` (incremental tree aggregation),
* `gradon/stats_fs_adapter.py` — the stats adapters and their path cache,
* `gradon/file_system.py` — the cached git-backed snapshot store,
* `gradon/core.py`    — commit replay and delta reconstruction.

Paths are ordinary strings exactly as in the Python code (the root
directory is `"."`, children are joined with `"/"`).  A pandas `Series`
keyed by `(category, metric)` is embedded as a sorted association list
from a single string key to `Option Int`; `none` plays the role of a
`NaN` entry (produced by pandas when `+`/`-` align two series whose key
sets differ).
-/

namespace Gradon

/-! ## Path utilities (mirroring `os.path` on the relative paths used by gradon) -/

/-- One left-to-right pass of `re.sub(r'/\./', '/', ...)`:
non-overlapping replacement of `/./` by `/`. -/
def norm_chars : List Char → List Char
  | '/' :: '.' :: '/' :: rest => '/' :: norm_chars rest
  | c :: rest => c :: norm_chars rest
  | [] => []

/-- Python `s.startswith(pre)` (over characters, so that the kernel can
evaluate it; `String.startsWith` is a byte-level loop that does not
reduce). -/
def str_starts_with (s pre : String) : Bool := pre.data.isPrefixOf s.data

/-- Python `s.endswith(suf)`. -/
def str_ends_with (s suf : String) : Bool := suf.data.isSuffixOf s.data

/-- Python string `<`: lexicographic comparison of code points (again at
the character level so the kernel can evaluate it). -/
def chars_lt : List Char → List Char → Bool
  | [], [] => false
  | [], _ :: _ => true
  | _ :: _, [] => false
  | a :: as, b :: bs =>
    if a.toNat < b.toNat then true
    else if b.toNat < a.toNat then false
    else chars_lt as bs

def str_lt (a b : String) : Bool := chars_lt a.data b.data

/-- `_normalize_path` from `file_system.py` / `stats_fs_adapter.py`:
`re.sub(r'^\./', '', re.sub(r'/\./', '/', path))`.  The same function also
models how the operating system resolves `./` segments in relative paths
handed to `open`/`os.remove`/`os.path.exists`. -/
def normalize (p : String) : String :=
  match norm_chars p.data with
  | '.' :: '/' :: rest => String.mk rest
  | t => String.mk t

/-- Characters of `l` that precede its last `'/'`; `none` when `l` has no `'/'`.
This is `os.path.dirname` on the relative paths gradon manipulates. -/
def dirname_chars : List Char → Option (List Char)
  | [] => none
  | c :: cs =>
    match dirname_chars cs with
    | some d => some (c :: d)
    | none => if c = '/' then some [] else none

/-- `os.path.dirname` (for relative paths). -/
def dirname (p : String) : String :=
  match dirname_chars p.data with
  | some d => String.mk d
  | none => ""

/-- `os.path.basename` (for relative paths). -/
def basename (p : String) : String :=
  String.mk ((p.data.reverse.takeWhile (fun c => c ≠ '/')).reverse)

/-- The idiom `os.path.dirname(p) or '.'` used throughout `stats.py`. -/
def parent_dir (p : String) : String :=
  if dirname p = "" then "." else dirname p

/-- `os.path.join` for the (always relative, non-empty) components gradon joins. -/
def pjoin (a b : String) : String := a ++ "/" ++ b

/-- Python `f.replace('.stats.yaml', '')`: remove every (non-overlapping,
left-to-right) occurrence of the record suffix. -/
def strip_record_chars : List Char → List Char
  | '.' :: 's' :: 't' :: 'a' :: 't' :: 's' :: '.' :: 'y' :: 'a' :: 'm' :: 'l' :: rest =>
    strip_record_chars rest
  | c :: rest => c :: strip_record_chars rest
  | [] => []

def strip_record_suffix (f : String) : String :=
  String.mk (strip_record_chars f.data)

/-- The prefixes of `l` that end immediately before one of its `'/'`
characters, shortest first.  These are exactly the iterated
`os.path.dirname` values of `l` (down to the slash-free head). -/
def slash_prefixes : List Char → List (List Char)
  | [] => []
  | c :: rest =>
    (if c = '/' then [([] : List Char)] else []) ++
    (slash_prefixes rest).map (fun q => c :: q)

/-- The chain `p, parent(p), parent(parent(p)), …, "."` of a directory path
together with the root.  (`_aggregate_subtrees` walks exactly this chain by
repeatedly pushing `os.path.dirname(dir_path) or '.'`.) -/
def ancestor_chain (p : String) : List String :=
  if p = "." then ["."]
  else p :: ((slash_prefixes p.data).reverse.map String.mk ++ ["."])

/-! ## The StatValue algebra (pandas `Series` keyed by `(category, metric)`) -/

/-- A metric value: `none` models a pandas `NaN` entry. -/
abbrev Val := Option Int

/-- A pandas `Series`: an association list from key to value.  Series built
by `dict_to_series` are sorted by key and duplicate-free. -/
abbrev Series := List (String × Val)

def skeys (s : Series) : List String := s.map Prod.fst

def sfind (s : Series) (k : String) : Option Val :=
  (s.find? (fun kv => kv.1 = k)).map Prod.snd

/-- Sorted duplicate-free insert, used to build pandas' sorted union index. -/
def insert_key (k : String) : List String → List String
  | [] => [k]
  | x :: xs =>
    if k = x then x :: xs
    else if str_lt k x then k :: x :: xs
    else x :: insert_key k xs

def sort_dedup_keys (l : List String) : List String := l.foldr insert_key []

/-- pandas index alignment: identical indexes are kept as-is, otherwise the
union of the two indexes is taken in sorted order. -/
def union_keys (ka kb : List String) : List String :=
  if ka = kb then ka else sort_dedup_keys (ka ++ kb)

/-- `NaN`-propagating addition of two values. -/
def ov_add : Val → Val → Val
  | some a, some b => some (a + b)
  | _, _ => none

def ov_sub : Val → Val → Val
  | some a, some b => some (a - b)
  | _, _ => none

/-- `a.add(b, fill_value=0)`: union of the indexes, a key missing on one
side is treated as `0` there; a present-but-`NaN` value stays `NaN`. -/
def add_fill (a b : Series) : Series :=
  (union_keys (skeys a) (skeys b)).map fun k =>
    (k, ov_add ((sfind a k).getD (some 0)) ((sfind b k).getD (some 0)))

/-- pandas `a + b`: union of the indexes, keys missing on either side
become `NaN`. -/
def py_add (a b : Series) : Series :=
  (union_keys (skeys a) (skeys b)).map fun k =>
    (k, match sfind a k, sfind b k with
        | some va, some vb => ov_add va vb
        | _, _ => none)

/-- pandas `a - b`: union of the indexes, keys missing on either side
become `NaN`. -/
def py_sub (a b : Series) : Series :=
  (union_keys (skeys a) (skeys b)).map fun k =>
    (k, match sfind a k, sfind b k with
        | some va, some vb => ov_sub va vb
        | _, _ => none)

/-- `zero_series` from `stats.py`: `series.apply(lambda v: 0)` keeps the
key set and maps every value (even `NaN`) to `0`. -/
def zero_series (s : Series) : Series := s.map fun kv => (kv.1, some 0)

/-- `series.mul(sign)`; `NaN` entries stay `NaN`. -/
def series_mul (s : Series) (n : Int) : Series :=
  s.map fun kv => (kv.1, kv.2.map (fun v => v * n))

/-- Python's builtin `sum` over a list of series.  `sum([])` is the `int` `0`
(modelled as `none`); otherwise the fold `0 + s₁ + s₂ + …` where `0 + s₁`
broadcasts to `s₁` and the remaining additions are pandas `+`. -/
def py_sum : List Series → Option Series
  | [] => none
  | s :: rest => some (rest.foldl py_add s)

/-! ## Association-list stores -/

def alist_get {α : Type} (l : List (String × α)) (k : String) : Option α :=
  (l.find? (fun kv => kv.1 = k)).map Prod.snd

def alist_set {α : Type} (l : List (String × α)) (k : String) (v : α) :
    List (String × α) :=
  if (l.find? (fun kv => kv.1 = k)).isSome then
    l.map fun kv => if kv.1 = k then (k, v) else kv
  else l ++ [(k, v)]

def alist_erase {α : Type} (l : List (String × α)) (k : String) :
    List (String × α) :=
  l.filter (fun kv => kv.1 ≠ k)

/-- Add to a Python `set` modelled as a duplicate-free list. -/
def set_add (l : List String) (x : String) : List String :=
  if x ∈ l then l else l ++ [x]

/-- `set.remove`/`discard` on the same model. -/
def set_remove (l : List String) (x : String) : List String :=
  l.filter (fun y => y ≠ x)

/-! ## The on-disk snapshot store

The working tree of the stats repository.  File keys are the paths as the
operating system resolves them (`./`-segments collapsed, cf. `normalize`).
Contents are only ever inspected for `.stats.yaml` record files; the yaml
round-trip `series_to_dict`/`read_stats_file` is treated as the identity
coding of a `Series`, and method-list files are kept as an opaque tag. -/

inductive FData where
  | stats (s : Series)
  | methods
  deriving DecidableEq, Repr

structure Disk where
  files : List (String × FData)
  /-- Existing directories other than the root `"."` (created by
  `os.makedirs`, removed only by a successful `os.rmdir`). -/
  dirs : List String
  deriving DecidableEq, Repr

def Disk.exists_dir (d : Disk) (p : String) : Bool :=
  p = "." ∨ p ∈ d.dirs

/-- `os.makedirs`: create the directory and every missing ancestor. -/
def Disk.mkdirs (d : Disk) (dir : String) : Disk :=
  { d with dirs := ((ancestor_chain dir).filter (fun q => q ≠ ".")).foldl set_add d.dirs }

/-- `FileSystem.add_file`: normalize the path, `os.makedirs` its directory,
write the file. -/
def Disk.write (d : Disk) (p : String) (c : FData) : Disk :=
  let q := normalize p
  let d1 := if parent_dir q = "." then d else d.mkdirs (parent_dir q)
  { d1 with files := alist_set d1.files q c }

/-- `FileSystem.read` (and `open(...)` generally): the OS resolves `./`
segments; absent files yield `None`. -/
def Disk.read (d : Disk) (p : String) : Option FData :=
  alist_get d.files (normalize p)

/-- `os.remove` at the OS-resolved path. -/
def Disk.remove_file (d : Disk) (p : String) : Disk :=
  { d with files := alist_erase d.files (normalize p) }

/-- File basenames living directly in directory `p`. -/
def Disk.file_names (d : Disk) (p : String) : List String :=
  ((d.files.map Prod.fst).filter (fun q => parent_dir q = normalize p)).map basename

/-- Subdirectory basenames of `p`. -/
def Disk.dir_names (d : Disk) (p : String) : List String :=
  (d.dirs.filter (fun q => parent_dir q = normalize p)).map basename

/-- `scandir` entry names: regular files and directories alike. -/
def Disk.ls_entries (d : Disk) (p : String) : List String :=
  d.file_names p ++ d.dir_names p

/-- `FileSystem.ls_files`: all `scandir` entries (files *and* directories),
`[]` when the directory does not exist. -/
def Disk.ls_files (d : Disk) (p : String) : List String :=
  if d.exists_dir (normalize p) then d.ls_entries p else []

/-- `FileSystem.ls_dirs`: directory entries whose name does not start
with `'.'`.  (The Python version would raise on a missing directory; the
updater only ever lists directories it has created, so the `[]` default is
never observed.) -/
def Disk.ls_dirs (d : Disk) (p : String) : List String :=
  if d.exists_dir (normalize p) then
    (d.dir_names p).filter (fun n => ¬ str_starts_with n ".")
  else []

/-- Is directory `p` empty (no files, no subdirectories)? -/
def Disk.dir_empty (d : Disk) (p : String) : Bool :=
  d.file_names p = [] ∧ d.dir_names p = []

/-- `FileSystem.rmdir`: `os.rmdir`, with `OSError` (non-empty directory,
or the path being a regular file) silently ignored. -/
def Disk.rmdir (d : Disk) (p : String) : Disk :=
  let q := normalize p
  if q ∈ d.dirs ∧ d.dir_empty q then
    { d with dirs := set_remove d.dirs q }
  else d

/-! ## The cached git file system

`GitCachedStatsFileSystem = CachedFileSystemMixin + GitStatsFileSystem`,
the class the replay engine drives.  The mixin keeps per-directory listing
caches (`_files_cache` / `_dirs_cache`, Python sets modelled as
duplicate-free lists). -/

structure FS where
  disk : Disk
  files_cache : List (String × List String)
  dirs_cache : List (String × List String)
  deriving DecidableEq, Repr

def cache_has_key (c : List (String × List String)) (k : String) : Bool :=
  (alist_get c k).isSome

def cache_add (c : List (String × List String)) (k x : String) :
    List (String × List String) :=
  match alist_get c k with
  | some l => alist_set c k (set_add l x)
  | none => c

def cache_remove (c : List (String × List String)) (k x : String) :
    List (String × List String) :=
  match alist_get c k with
  | some l => alist_set c k (set_remove l x)
  | none => c

/-- The nodes visited by the `while path:` loop of
`_update_cache_to_contain_file`: the (already normalized) file path itself
and its successive `os.path.dirname(...) or '.'` parents, stopping at the
root `'.'` (the loop's `break`) or at a falsy empty string.  Note that the
walk starts at the *file* path, so the first step enters the file's own
basename into a dirs cache. -/
def walk_nodes (p : String) : List String :=
  (ancestor_chain p).takeWhile (fun x => decide (x ≠ "") && decide (x ≠ "."))

/-- `_update_cache_to_contain_file`'s dirs-cache walk: at every visited
node, add its basename to the cached listing of its parent when that
listing is cached. -/
def cache_walk (c : List (String × List String)) (p : String) :
    List (String × List String) :=
  (walk_nodes p).foldl
    (fun c x =>
      if cache_has_key c (parent_dir x) then cache_add c (parent_dir x) (basename x)
      else c) c

/-- `CachedFileSystemMixin.add_file` over `GitStatsFileSystem.add_file`:
write the file, then `_update_cache_to_contain_file`. -/
def FS.add_file (fs : FS) (p : String) (c : FData) : FS :=
  let disk := fs.disk.write p c
  let np := normalize p
  let fc :=
    if cache_has_key fs.files_cache (parent_dir np) then
      cache_add fs.files_cache (parent_dir np) (basename np)
    else fs.files_cache
  let dc := cache_walk fs.dirs_cache np
  { disk := disk, files_cache := fc, dirs_cache := dc }

/-- `CachedFileSystemMixin.rm` over `GitStatsFileSystem.rm`.  The mixin
normalizes the path and drops the basename from the files cache; the git
layer then computes `self._abs_file_path(*path)` — the `*` splats the path
*string into its individual characters*, and `os.path.join` restarts at the
lone `'/'` character, yielding an absolute path such as `/x/./p/y/…` that
never exists.  The `os.path.exists` guard therefore fails and **no file is
ever removed from the working tree**. -/
def FS.rm (fs : FS) (p : String) : FS :=
  let np := normalize p
  let fc :=
    if cache_has_key fs.files_cache (parent_dir np) then
      cache_remove fs.files_cache (parent_dir np) (basename np)
    else fs.files_cache
  { fs with files_cache := fc }

/-- `CachedFileSystemMixin.ls_files`: serve from the cache, otherwise list
the disk and fill the cache. -/
def FS.ls_files (fs : FS) (p : String) : List String × FS :=
  let np := normalize p
  match alist_get fs.files_cache np with
  | some l => (l, fs)
  | none =>
    let l := fs.disk.ls_files np
    (l, { fs with files_cache := alist_set fs.files_cache np l })

/-- `CachedFileSystemMixin.ls_dirs`. -/
def FS.ls_dirs (fs : FS) (p : String) : List String × FS :=
  let np := normalize p
  match alist_get fs.dirs_cache np with
  | some l => (l, fs)
  | none =>
    let l := fs.disk.ls_dirs np
    (l, { fs with dirs_cache := alist_set fs.dirs_cache np l })

/-- `CachedFileSystemMixin.rmdir` over `FileSystem.rmdir`.  Note the cache
key: the mixin uses `os.path.dirname(path)` *without* the `or '.'`
fallback used everywhere else, so for a top-level path like `"a"`
(normalized from `"./a"`) it looks up the cache key `""` — never present —
and the root's dirs cache keeps the entry. -/
def FS.rmdir (fs : FS) (p : String) : FS :=
  let np := normalize p
  let dn := dirname np
  let dc :=
    if cache_has_key fs.dirs_cache dn then
      cache_remove fs.dirs_cache dn (basename np)
    else fs.dirs_cache
  { fs with dirs_cache := dc, disk := fs.disk.rmdir np }

/-! ## The stats adapter

`GitCachedStatsFSAdapter = CachedStatsFSAdapterMixin + GitStatsAdapter`
(`create_adapter_for_fs` always wraps the caching mixin).  The cache maps a
path to either the pickled result of the last `get`/`set` (`pickled`), or
the Python `None` that `rm` stores (`marker`); `get` distinguishes the two
with `if data:` — a pickled payload is always truthy, the bare `None` is
not, and in the latter case `get` returns `None` ignoring its `default`. -/

inductive CEntry where
  | marker
  | pickled (v : Option Series)
  deriving DecidableEq, Repr

structure Adapter where
  cache : List (String × CEntry)
  deriving DecidableEq, Repr

/-- The updater's whole mutable state: the cached git file system plus the
caching stats adapter layered on it. -/
structure St where
  fs : FS
  ad : Adapter
  deriving DecidableEq, Repr

/-- `StatsFSAdapter.get` (the uncached read-through): read
`path + '.stats.yaml'`, parse it, or return the default. -/
def fs_stats_read (fs : FS) (p : String) (dflt : Option Series) : Option Series :=
  match fs.disk.read (p ++ ".stats.yaml") with
  | some (FData.stats s) => some s
  | _ => dflt

/-- `CachedStatsFSAdapterMixin.get`: normalize, consult the cache, fall
through to the file system and remember the (pickled) answer. -/
def adapter_get (σ : St) (p : String) (dflt : Option Series) : Option Series × St :=
  let np := normalize p
  match alist_get σ.ad.cache np with
  | some CEntry.marker => (none, σ)
  | some (CEntry.pickled v) => (v, σ)
  | none =>
    let r := fs_stats_read σ.fs np dflt
    (r, { σ with ad := ⟨alist_set σ.ad.cache np (CEntry.pickled r)⟩ })

/-- The result an `adapter_get` with default `None` would return, without
performing the state mutation. -/
def peek_stats (σ : St) (p : String) : Option Series :=
  let np := normalize p
  match alist_get σ.ad.cache np with
  | some CEntry.marker => none
  | some (CEntry.pickled v) => v
  | none => fs_stats_read σ.fs np none

/-- `CachedStatsFSAdapterMixin.set` over `GitStatsAdapter.set`: normalize,
cache the pickled series, write `path + '.stats.yaml'`. -/
def adapter_set (σ : St) (p : String) (s : Series) : St :=
  let np := normalize p
  { fs := σ.fs.add_file (np ++ ".stats.yaml") (FData.stats s),
    ad := ⟨alist_set σ.ad.cache np (CEntry.pickled (some s))⟩ }

/-- `CachedStatsFSAdapterMixin.rm`: store the `None` marker under the
**unnormalized** path (`rm` is the one mixin method that forgets to call
`_normalize_path`), then `StatsFSAdapter.rm` → `fs.rm(path+'.stats.yaml')`. -/
def adapter_rm (σ : St) (p : String) : St :=
  { fs := σ.fs.rm (p ++ ".stats.yaml"),
    ad := ⟨alist_set σ.ad.cache p CEntry.marker⟩ }

/-- `StatsFSAdapter.ls`: names of the `.stats.yaml` files in `p`, with the
suffix stripped (`f.replace('.stats.yaml', '')`). -/
def adapter_ls (σ : St) (p : String) : List String × St :=
  let (l, fs') := σ.fs.ls_files p
  ((l.filter (fun f => str_ends_with f ".stats.yaml")).map
      strip_record_suffix,
   { σ with fs := fs' })

/-! ## The source tree and the analyzer -/

/-- A snapshot of the source working tree.  `files` and `dirs` hold
normalized relative paths; list order stands in for `scandir` order. -/
structure Src where
  files : List String
  dirs : List String
  deriving DecidableEq, Repr

/-- `os.path.exists(os.path.join(source_root, dir, f))`. -/
def source_exists (src : Src) (dir f : String) : Bool :=
  let q := normalize (pjoin dir f)
  q ∈ src.files ∨ q ∈ src.dirs

/-- `scandir` entry names (files and directories) of a source directory. -/
def src_entries (src : Src) (dir : String) : List String :=
  (src.files.filter (fun q => parent_dir q = dir)).map basename ++
  (src.dirs.filter (fun q => parent_dir q = dir)).map basename

/-- The update environment: the source snapshot, the analyzer (`None`
models `AnalysisFailed`; the methods list it also produces is opaque), and
the constructor-supplied `test_patterns`, as the predicate the regex list
induces. -/
structure Env where
  src : Src
  analyze : String → Option Series
  is_test : String → Bool

/-- Python tuple `<` on `(int, str)` pairs: ints first, then the
byte-lexicographic string order. -/
def tup_lt (a b : Int × String) : Bool :=
  a.1 < b.1 || (a.1 = b.1 && str_lt a.2 b.2)

/-- `heapq.heappop` on a heap modelled as a plain multiset of entries:
remove and return the least entry. -/
def extract_min : List (Int × String) → Option ((Int × String) × List (Int × String))
  | [] => none
  | e :: rest =>
    match extract_min rest with
    | none => some (e, [])
    | some (m, others) =>
      if tup_lt m e then some (m, e :: others) else some (e, rest)

theorem parent_dir_dot : parent_dir "." = "." := by decide

/-- `scandir` subdirectories of `r` whose names do not start with `'.'`,
as full relative paths. -/
def child_dirs (src : Src) (r : String) : List String :=
  src.dirs.filter (fun q => decide (parent_dir q = r) && ! str_starts_with (basename q) ".")

/-- `scandirs_depth_first` from `stats.py`: post-order listing of the
non-hidden source directories, relative to `r`.  The recursion budget is
consumed once per nesting level; the wrapper passes `src.dirs.length + 1`,
which dominates the nesting depth (every level enters a distinct member of
`src.dirs`), so the `0` branch is never taken. -/
def scandirs_df_fuel (src : Src) : Nat → String → List String
  | 0, _ => []
  | fuel + 1, r =>
    (child_dirs src r).flatMap (fun c =>
      ((scandirs_df_fuel src fuel c).map (fun sub => pjoin (basename c) sub)) ++
      [basename c])

def scandirs_depth_first (src : Src) (r : String) : List String :=
  scandirs_df_fuel src (src.dirs.length + 1) r

/-! ## The `StatsUpdater` -/

/-- `_py_stats_files`: adapter listing restricted to `.py` record names. -/
def py_stats_files (σ : St) (dir : String) : List String × St :=
  let (l, σ1) := adapter_ls σ dir
  (l.filter (fun f => str_ends_with f ".py"), σ1)

/-- `_py_method_files`: *raw* file-system listing restricted to names ending
in `.py`.  Method files are named `….py.methods.yaml`, so this filter never
matches them — the list is empty in every reachable state. -/
def py_method_files (σ : St) (dir : String) : List String × St :=
  let (l, fs1) := σ.fs.ls_files dir
  (l.filter (fun f => str_ends_with f ".py"), { σ with fs := fs1 })

/-- `_non_py_stats_files`. -/
def non_py_stats_files (σ : St) (dir : String) : List String × St :=
  let (l, σ1) := adapter_ls σ dir
  (l.filter (fun f => ¬ str_ends_with f ".py"), σ1)

/-- The per-file body of `_visit_files_in_dir`'s analysis loop: a
successful analysis stores the record and the method file; an
`AnalysisFailed` (`none`) leaves the state untouched and moves on. -/
def visit_step (env : Env) (dir_path : String) (acc : St × Bool) (f : String) :
    St × Bool :=
  match env.analyze (pjoin dir_path f) with
  | some s =>
    let σa := adapter_set acc.1 (pjoin dir_path f) s
    let σb := { σa with
      fs := σa.fs.add_file (pjoin dir_path (f ++ ".methods.yaml")) FData.methods }
    (σb, true)
  | none => acc

/-- `StatsUpdater._visit_files_in_dir`: analyze the changed/scanned `.py`
files of one directory (storing a record and a method file per success,
skipping `AnalysisFailed`), then drop records of tracked files that are no
longer on disk.  Returns the new state and `has_changes or stale`. -/
def visit_files_in_dir (env : Env) (σ : St) (dir_path : String)
    (changed_files : Option (List String)) (pathsExcl : Option (String → Bool))
    (ignore : String → Bool) : St × Bool :=
  let changed_iter :=
    match changed_files with
    | none => src_entries env.src dir_path
    | some l => l.filter (fun f => source_exists env.src dir_path f)
  let files_to_analyze := changed_iter.filter (fun f =>
    str_ends_with f ".py" &&
    (match pathsExcl with
     | none => true
     | some ex => ! ex (pjoin dir_path f)) &&
    ! ignore (pjoin dir_path f))
  let (σ1, has_changes) := files_to_analyze.foldl (visit_step env dir_path) (σ, false)
  let (pyS, σ2) := py_stats_files σ1 dir_path
  let (pyM, σ3) := py_method_files σ2 dir_path
  let stale := (pyS ++ pyM).filter (fun f =>
    (changed_files.isNone || decide (f ∈ changed_files.getD [])) &&
    ! source_exists env.src dir_path f)
  let σ4 := stale.foldl (fun σ f => adapter_rm σ (pjoin dir_path f)) σ3
  (σ4, has_changes || ! stale.isEmpty)

/-- The `totals['TOTAL'] is None` initialisation of `_aggregate_dir`: the
running totals, seeded on the first record with its zero series. -/
def totals_seed (t : Option (Series × Series × Series)) (s : Series) :
    Series × Series × Series :=
  match t with
  | none => (zero_series s, zero_series s, zero_series s)
  | some t => t

/-- The record-summing loop of `_aggregate_dir`, threading the adapter
state.  A record listed but unloadable (`None`) crashes the Python run
(`zero_series(None)` / `Series.add(None)`); that is the `none` result. -/
def aggregate_dir_loop (env : Env) (dir : String) :
    List String → St → Option (Series × Series × Series) →
    Option (St × Option (Series × Series × Series))
  | [], σ, totals => some (σ, totals)
  | f :: rest, σ, totals =>
    let (s?, σ1) := adapter_get σ (pjoin dir f) none
    match s? with
    | none => none
    | some s =>
      let t0 := totals_seed totals s
      let tot := add_fill t0.1 s
      -- `basename = re.sub(r'.stats.yaml$', '', stats_file)` never fires on
      -- the already-stripped names the adapter listing returns.
      let is_test := env.is_test f
      let tt := if is_test then add_fill t0.2.1 s else t0.2.1
      let tnt := if is_test then t0.2.2 else add_fill t0.2.2 s
      aggregate_dir_loop env dir rest σ1 (some (tot, tt, tnt))

/-- The directory aggregation invariant, as a pure function of the record
values that exist: the `(TOTAL, TOTAL_TEST, TOTAL_NON_TEST)` triple is the
fill-value-`0` sum of the records, the latter two restricted by the test
predicate, all three started from the zero series of the first record. -/
def dir_record_total (is_test : String → Bool) :
    List (String × Series) → Option (Series × Series × Series) →
    Option (Series × Series × Series)
  | [], t => t
  | (f, s) :: rest, t =>
    let t0 := totals_seed t s
    dir_record_total is_test rest
      (some (add_fill t0.1 s,
        (if is_test f then add_fill t0.2.1 s else t0.2.1),
        (if is_test f then t0.2.2 else add_fill t0.2.2 s)))

/-- `StatsUpdater._aggregate_dir`: recompute `TOTAL`, `TOTAL_TEST` and
`TOTAL_NON_TEST` from the directory's current records, or remove the three
aggregates when no record remains. -/
def aggregate_dir (env : Env) (σ : St) (dir : String) : Option St :=
  let (files, σ0) := py_stats_files σ dir
  match aggregate_dir_loop env dir files σ0 none with
  | none => none
  | some (σ1, totals?) =>
    if files.isEmpty then
      some (["TOTAL", "TOTAL_TEST", "TOTAL_NON_TEST"].foldl
        (fun σ n => adapter_rm σ (pjoin dir n)) σ1)
    else
      match totals? with
      | some t =>
        some (adapter_set (adapter_set (adapter_set σ1
          (pjoin dir "TOTAL") t.1)
          (pjoin dir "TOTAL_TEST") t.2.1)
          (pjoin dir "TOTAL_NON_TEST") t.2.2)
      | none => none   -- unreachable: a non-empty loop always initializes the totals

/-- Load the subtotal series at the given paths in order; the tag is the
`subtotal_path[1:-1]` tuple recorded in `found_stats` (`some d` for a
subdirectory contribution, `none` for the directory's own total). -/
def subtree_loop : St → List (String × Option String) →
    List Series × List (Option String) × St
  | σ, [] => ([], [], σ)
  | σ, (p, tag) :: rest =>
    let (s?, σ1) := adapter_get σ p none
    let (ss, fnd, σ2) := subtree_loop σ1 rest
    match s? with
    | some s => (s :: ss, tag :: fnd, σ2)
    | none => (ss, fnd, σ2)

/-- `StatsUpdater._aggregate_subtree`: recompute the three `SUBTREE_*`
aggregates of one directory from its subdirectories' `SUBTREE_*` and its
own `TOTAL*`, removing an aggregate whose contribution list was empty
(`sum([]) is 0`), then prune subdirectories that contributed nothing. -/
def aggregate_subtree (σ : St) (dir_path : String) : St :=
  let (subdirs, fs1) := σ.fs.ls_dirs dir_path
  let σ1 : St := { σ with fs := fs1 }
  let (existing, σ2) := non_py_stats_files σ1 dir_path
  let step := fun (acc : St × List (Option String)) (name : String) =>
    let subtree_name := "SUBTREE_" ++ name
    let entries :=
      (subdirs.map (fun d => (pjoin dir_path (pjoin d subtree_name), some d))) ++
      [(pjoin dir_path name, (none : Option String))]
    let (stats, fnd, σ') := subtree_loop acc.1 entries
    let σ'' :=
      match py_sum stats with
      | none =>
        if subtree_name ∈ existing then adapter_rm σ' (pjoin dir_path subtree_name)
        else σ'
      | some tot => adapter_set σ' (pjoin dir_path subtree_name) tot
    (σ'', acc.2 ++ fnd)
  let (σ3, found) := ["TOTAL", "TOTAL_TEST", "TOTAL_NON_TEST"].foldl step (σ2, [])
  subdirs.foldl (fun σ d =>
    if (some d) ∈ found then σ
    else { σ with fs := σ.fs.rmdir (pjoin dir_path d) }) σ3

/-- The `while remaining_path_heap:` loop of `_aggregate_subtrees`: pop
the least heap entry, skip it if already finished, otherwise aggregate its
subtree, push its parent and mark it finished.  One unit of fuel is
consumed per pop.  The budget supplied by `aggregate_subtrees` dominates
the number of pops: each processed path adds a distinct member of the
(finite, parent-closed) ancestor closure of the seeds to `finished`, so
at most `|closure|` pushes ever happen beyond the seeds, and every pop
consumes one of the at most `|seeds| + |closure|` entries ever pushed.
Returns the final state, the `finished_paths` set, and (as evidence for
ordering claims) the exact processing order. -/
def subtrees_go : Nat → St → List (Int × String) → List String → List String →
    St × List String × List String
  | 0, σ, _, finished, order => (σ, finished, order)
  | fuel + 1, σ, heap, finished, order =>
    match extract_min heap with
    | none => (σ, finished, order)
    | some (e, rest) =>
      if e.2 ∈ finished then
        subtrees_go fuel σ rest finished order
      else
        let σ' := aggregate_subtree σ e.2
        let par := parent_dir e.2
        subtrees_go fuel σ' ((-(par.length : Int), par) :: rest)
          (e.2 :: finished) (order ++ [e.2])

/-- `StatsUpdater._aggregate_subtrees`: seed a `heapq` keyed by
`(-len(path), path)` with the dirty directories, and repeatedly pop the
least entry (longest path first; ties broken by the byte order of the path
string), aggregate it if unseen, and push its parent. -/
def aggregate_subtrees (σ : St) (dir_paths : List String) :
    St × List String × List String :=
  let univ := dir_paths.flatMap ancestor_chain
  subtrees_go (dir_paths.length + univ.length + 1) σ
    (dir_paths.map (fun p => (-(p.length : Int), p))) [] []

/-- `StatsUpdater._generate_dirs_and_files`: every source directory
(leaves first) with an unconstrained file set on a full rescan, otherwise
the changed files grouped by their directory. -/
def generate_dirs_and_files (src : Src) :
    Option (List String) → List (String × Option (List String))
  | none => (scandirs_depth_first src ".").map (fun d => (d, none)) ++ [(".", none)]
  | some changed =>
    let grouped := changed.foldl (fun (acc : List (String × List String)) f =>
      let d := parent_dir f
      let b := basename f
      match alist_get acc d with
      | some l => alist_set acc d (set_add l b)
      | none => acc ++ [(d, [b])]) []
    grouped.map (fun df => (df.1, some df.2))

/-- `StatsUpdater.update`: visit every (changed) directory, aggregate the
dirty ones, then propagate subtree aggregates upward.  Returns the final
state and the set of dirty directories, or `none` when the Python run
would die with an exception.  (The `test_patterns` parameter of the Python
method is dead — `_aggregate_dir` reads the constructor's patterns, which
live in `Env`.) -/
def update (env : Env) (σ : St) (changed_files : Option (List String))
    (pathsExcl : Option (String → Bool)) (ignore : String → Bool) :
    Option (St × List String) :=
  let dir_files := generate_dirs_and_files env.src changed_files
  let after_visit := dir_files.foldl
    (fun (acc : Option (St × List String)) df =>
      match acc with
      | none => none
      | some (σ, dirty) =>
        let (σv, hc) := visit_files_in_dir env σ df.1 df.2 pathsExcl ignore
        if hc then
          match aggregate_dir env σv df.1 with
          | none => none
          | some σa => some (σa, set_add dirty df.1)
        else some (σv, dirty))
    (some (σ, []))
  match after_visit with
  | none => none
  | some (σ1, dirty) =>
    if dirty.isEmpty then some (σ1, dirty)
    else
      let res := aggregate_subtrees σ1 dirty
      some (res.1, res.2.1.foldl set_add dirty)

/-- A freshly initialized, empty snapshot store. -/
def St.empty : St := ⟨⟨⟨[], []⟩, [], []⟩, ⟨[]⟩⟩

/-! ## The replay engine (`core.py`)

The claims about `generate_stats_fs_commits_for_source_commits` concern
the stream of commits it produces, so the model tracks the emitted commits
(the store-content side effects are the updater's business, above). -/

/-- A source commit: its id and original message. -/
structure SrcC where
  hexsha : String
  message : String
  deriving DecidableEq, Repr

/-- One commit emitted into the stats repository:
`stats_fs.commit('[ignore] ' + current_sha + '\n')` for the incremental
catch-up commit, `stats_fs.commit(commit.hexsha + '\n' + commit.message, …)`
for the visible commit (author/committer/dates copied from the source). -/
inductive RCommit where
  | catchup (sha : String)
  | visible (sha message : String)
  deriving DecidableEq, Repr

def RCommit.msg : RCommit → String
  | catchup s => "[ignore] " ++ s ++ "\n"
  | visible s m => s ++ "\n" ++ m

def RCommit.is_catchup : RCommit → Bool
  | catchup _ => true
  | visible _ _ => false

/-- The `prev_shas` tee/chain plumbing for the non-reversed walk
(`core.py` lines 224–232): the `(previous, current)` pairs the loop zips
are `(parent(s₁) or emptyTree, s₁), (s₁, s₂), (s₂, s₃), …`. -/
def mk_pairs (shas : List SrcC) (parent_of : String → Option String)
    (empty_sha : String) : List (String × SrcC) :=
  match shas with
  | [] => []
  | s₁ :: _ =>
    List.zip (((parent_of s₁.hexsha).getD empty_sha) :: shas.map SrcC.hexsha) shas

/-- The commits emitted by the per-pair loop body (lines 236–278): when
`incremental` is set, *every* pair first resets to `previous` (or updates
over an empty changed set when `previous` is the empty tree) and commits
an `[ignore]`-tagged catch-up commit; then the pair's visible commit is
produced. -/
def replay_commits (incremental : Bool) (pairs : List (String × SrcC)) :
    List RCommit :=
  pairs.flatMap (fun pc =>
    (if incremental then [RCommit.catchup pc.2.hexsha] else []) ++
    [RCommit.visible pc.2.hexsha pc.2.message])

/-- The store's head just before pair `i` of the replay is processed: the
initial head for `i = 0`, afterwards the visible commit of pair `i-1`
(identified by its source sha). -/
def head_before (head0 : Option String) (pairs : List (String × SrcC))
    (i : Nat) : Option String :=
  if i = 0 then head0 else (pairs.get? (i - 1)).map (fun pc => pc.2.hexsha)

/-- The discipline the claim ascribes to the code: a pair whose `previous`
already matches the store's head gets no catch-up commit. -/
def spec_no_catchup_when_following (head0 : Option String)
    (incremental : Bool) (pairs : List (String × SrcC)) : Prop :=
  ∀ i, (h : i < pairs.length) →
    head_before head0 pairs i = some (pairs.get ⟨i, h⟩).1 →
    RCommit.catchup (pairs.get ⟨i, h⟩).2.hexsha ∉ replay_commits incremental pairs

/-- `git log` order: newest first. -/
def replay_store (incremental : Bool) (pairs : List (String × SrcC)) :
    List RCommit :=
  (replay_commits incremental pairs).reverse

/-- Split a commit message into its lines (`'\n'`-separated; a trailing
newline yields a final empty line, as for `git`'s per-line `--grep`). -/
def str_lines_aux : List Char → List (List Char)
  | [] => [[]]
  | c :: rest =>
    if c = '\n' then [] :: str_lines_aux rest
    else
      match str_lines_aux rest with
      | l :: ls => (c :: l) :: ls
      | [] => [[c]]

def str_lines (s : String) : List String := (str_lines_aux s.data).map String.mk

/-- `GitStatsFileSystem.get_rev_for_sha`:
`git log --grep='^' + hexsha --oneline` — the newest commit one of whose
message lines starts with the sha (the Python then returns that commit's
own id from the oneline output; the model returns the commit itself). -/
def get_rev_for_sha (store : List RCommit) (sha : String) : Option RCommit :=
  store.find? (fun c => (str_lines c.msg).any (fun l => str_starts_with l sha))

/-- The first whitespace-delimited token of a commit message (the
provenance contract; `_get_sha_from_message` reads it with `re.search(r'^\w+')`). -/
def first_token (m : String) : String :=
  String.mk (m.data.takeWhile (fun c => ¬ c.isWhitespace))

/-! ## The delta reconstructor (`generate_stats_for_stats_fs_commits`) -/

/-- One entry of a git tree diff, as `gitpython` presents it. -/
structure DiffEntry where
  a_path : Option String
  b_path : Option String
  new_file : Bool
  deleted_file : Bool
  deriving DecidableEq, Repr

/-- `_generate_changed_files`: keep the `.stats.yaml` record entries,
mapping `new_file`/`deleted_file` to a missing source/destination side. -/
def generate_changed_files (diffs : List DiffEntry) :
    List (Option String × Option String) :=
  (diffs.filter (fun d =>
    str_ends_with (match d.a_path with
                   | some a => a
                   | none => d.b_path.getD "") ".stats.yaml")).map
    (fun d => ((if d.new_file then none else d.a_path),
               (if d.deleted_file then none else d.b_path)))

/-- One row of `LATEST_CHANGES.yaml`: raw line counts for one source path. -/
structure LineStat where
  lines : Int
  insertions : Int
  deletions : Int
  deriving DecidableEq, Repr

/-- The `Stats` namedtuple (the opaque `commit` object is elided). -/
structure StatsRow where
  filename : String
  lines : Int × Int × Int
  lines_test : Int × Int × Int
  lines_non_test : Int × Int × Int
  delta : Series
  after : Series
  deriving DecidableEq, Repr

def add3 (a b : Int × Int × Int) : Int × Int × Int :=
  (a.1 + b.1, a.2.1 + b.2.1, a.2.2 + b.2.2)

/-- The body of `generate_stats_for_stats_fs_commits` for one changed
`(src, dest)` record pair: load before/after (a missing side defaults to a
same-shaped zero), `diff = after - before`, then one row per distinct
non-null path — Python iterates the two-element set `{src, dest}`, modelled
here in `src`-then-`dest` order — with sign `+1` for `dest` and `-1`
otherwise, each row also carrying the raw line-change attribution summed
from the manifest entries under the record's prefix.  Both paths `None`
would crash `zero_series(None)`; a git diff entry always names a path. -/
def stats_rows_for_pair (line_changes : List (String × LineStat))
    (filters : Option (String → Bool)) (test_pat : String → Bool)
    (prev_file curr_file : String → Series) :
    Option String → Option String → Option (List StatsRow) := fun src dest =>
  if src = none ∧ dest = none then none
  else
    let b0 := src.map prev_file
    let a0 := dest.map curr_file
    let before := b0.getD (zero_series (a0.getD []))
    let after := a0.getD (zero_series before)
    let diff := py_sub after before
    let files :=
      (match src with | some s => [s] | none => []) ++
      (match dest with
       | some d => if some d = src then [] else [d]
       | none => [])
    some (files.filterMap (fun file =>
      let filename := strip_record_suffix file
      let sign : Int := if some file = dest then 1 else -1
      if (match filters with
          | none => false
          | some ps => ¬ ps file) then none
      else
        let pfx := if str_ends_with filename ".py" then filename else dirname filename
        let dts := line_changes.filterMap (fun ec =>
          if pfx ≠ "" ∧ ¬ str_starts_with ec.1 pfx then none
          else some ((ec.2.lines, ec.2.insertions, ec.2.deletions),
                     test_pat (basename ec.1)))
        let totals := dts.foldl
          (fun (acc : (Int × Int × Int) × (Int × Int × Int) × (Int × Int × Int)) d =>
            let t := add3 acc.1 d.1
            if d.2 then (t, add3 acc.2.1 d.1, acc.2.2)
            else (t, acc.2.1, add3 acc.2.2 d.1))
          ((0, 0, 0), (0, 0, 0), (0, 0, 0))
        some { filename := filename, lines := totals.1,
               lines_test := totals.2.1, lines_non_test := totals.2.2,
               delta := series_mul diff sign, after := after }))

/-- All rows of one snapshot commit: the per-pair rows concatenated. -/
def stats_rows_for_commit (line_changes : List (String × LineStat))
    (filters : Option (String → Bool)) (test_pat : String → Bool)
    (prev_file curr_file : String → Series)
    (changed : List (Option String × Option String)) : Option (List StatsRow) :=
  changed.foldr
    (fun pr acc =>
      match stats_rows_for_pair line_changes filters test_pat prev_file curr_file
              pr.1 pr.2, acc with
      | some rows, some rest => some (rows ++ rest)
      | _, _ => none)
    (some [])

/-- The claim's description of the per-pair delta records (stated from the
spec's words, to be compared with `stats_rows_for_pair`): one record per
distinct non-null path among `{old, new}`, each carrying
`(after - before) * sign` where a missing side defaults to a same-shaped
zero and the sign is `+1` for the new/kept path, `-1` for the removed
path. -/
def spec_delta_records (prev_file curr_file : String → Series) :
    Option String → Option String → List (String × Series) := fun src dest =>
  let before? := src.map prev_file
  let after? := dest.map curr_file
  let before := before?.getD (zero_series (after?.getD []))
  let after := after?.getD (zero_series before)
  let delta := py_sub after before
  let paths :=
    (match src with | some s => [s] | none => []) ++
    (match dest with
     | some d => if some d = src then [] else [d]
     | none => [])
  paths.map (fun p =>
    (strip_record_suffix p, series_mul delta (if some p = dest then 1 else -1)))

/-! ## The plain cached adapter stack (`CachedStatsFSAdapterMixin` over
`StatsFSAdapter` over a plain `FileSystem`) — claim C10 -/

/-- A plain `FileSystem` holding record files: just the disk content,
keyed by the OS-resolved path. -/
abbrev PFS := List (String × Series)

def pfs_read (fs : PFS) (p : String) : Option Series := alist_get fs (normalize p)

def pfs_write (fs : PFS) (p : String) (s : Series) : PFS :=
  alist_set fs (normalize p) s

def pfs_rm (fs : PFS) (p : String) : PFS := alist_erase fs (normalize p)

/-- `StatsFSAdapter.get` with default `None`. -/
def plain_get (fs : PFS) (p : String) : Option Series :=
  pfs_read fs (p ++ ".stats.yaml")

/-- `StatsFSAdapter.set`. -/
def plain_set (fs : PFS) (p : String) (s : Series) : PFS :=
  pfs_write fs (p ++ ".stats.yaml") s

/-- `StatsFSAdapter.rm`. -/
def plain_rm (fs : PFS) (p : String) : PFS :=
  pfs_rm fs (p ++ ".stats.yaml")

/-- The state of `CachedStatsFSAdapter`: the pickle cache plus the backing
file system. -/
structure CSt where
  cache : List (String × CEntry)
  fs : PFS
  deriving DecidableEq, Repr

/-- `CachedStatsFSAdapterMixin.get` (default `None`). -/
def cached_get (σ : CSt) (p : String) : Option Series × CSt :=
  let np := normalize p
  match alist_get σ.cache np with
  | some CEntry.marker => (none, σ)
  | some (CEntry.pickled v) => (v, σ)
  | none =>
    let r := plain_get σ.fs np
    (r, { σ with cache := alist_set σ.cache np (CEntry.pickled r) })

/-- `CachedStatsFSAdapterMixin.set`. -/
def cached_set (σ : CSt) (p : String) (s : Series) : CSt :=
  let np := normalize p
  { cache := alist_set σ.cache np (CEntry.pickled (some s)),
    fs := plain_set σ.fs np s }

/-- `CachedStatsFSAdapterMixin.rm`: the marker is stored under the
**unnormalized** path (this method alone skips `_normalize_path`), while
the file removal goes through the backing file system, which resolves the
path. -/
def cached_rm (σ : CSt) (p : String) : CSt :=
  { cache := alist_set σ.cache p CEntry.marker,
    fs := plain_rm σ.fs p }

/-- An adapter call: `set`, `rm`, or `get` (with the default `None`). -/
inductive AOp where
  | set (p : String) (s : Series)
  | rm (p : String)
  | get (p : String)
  deriving DecidableEq, Repr

def aop_path : AOp → String
  | .set p _ => p
  | .rm p => p
  | .get p => p

/-- Run a call sequence against the uncached adapter, observing the `get`
results. -/
def run_plain : List AOp → PFS → List (Option Series) × PFS
  | [], fs => ([], fs)
  | AOp.set p s :: rest, fs => run_plain rest (plain_set fs p s)
  | AOp.rm p :: rest, fs => run_plain rest (plain_rm fs p)
  | AOp.get p :: rest, fs =>
    let r := run_plain rest fs
    (plain_get fs p :: r.1, r.2)

/-- Run a call sequence against the caching adapter. -/
def run_cached : List AOp → CSt → List (Option Series) × CSt
  | [], σ => ([], σ)
  | AOp.set p s :: rest, σ => run_cached rest (cached_set σ p s)
  | AOp.rm p :: rest, σ => run_cached rest (cached_rm σ p)
  | AOp.get p :: rest, σ =>
    let g := cached_get σ p
    let r := run_cached rest g.2
    (g.1 :: r.1, r.2)

/-- A path left unchanged by `_normalize_path` (no `./` segments), whose
record-file name is likewise unchanged. -/
def good_path (p : String) : Prop :=
  normalize p = p ∧ normalize (p ++ ".stats.yaml") = p ++ ".stats.yaml"

/-- The pickle cache agrees with the backing store on every good path. -/
def cache_coherent (σ : CSt) : Prop :=
  ∀ p, good_path p →
    match alist_get σ.cache p with
    | some CEntry.marker => plain_get σ.fs p = none
    | some (CEntry.pickled v) => plain_get σ.fs p = v
    | none => True

/-! ## Concrete scenarios

`tie_env`: a source tree with `x.py` at the root and `y.py` inside the
single-character top-level directory `a`.  The root path `"."` and the
directory path `"a"` both have string length 1, so their heap keys tie at
`(-1, ·)` and Python's tuple order breaks the tie by the byte order of the
strings — `'.'` (0x2E) sorts before `'a'` (0x61). -/

def tie_env : Env :=
  { src := { files := ["x.py", "a/y.py"], dirs := ["a"] },
    analyze := fun p =>
      if p = "./x.py" then some [("m", some 2)]
      else if p = "a/y.py" then some [("m", some 3)]
      else none,
    is_test := fun _ => false }

/-- A full `update(ALL)` of `tie_env` against an empty store. -/
def tie_run1 : Option (St × List String) :=
  update tie_env St.empty none none (fun _ => false)

/-- The same full `update(ALL)` run a second time, with no source change. -/
def tie_run2 : Option (St × List String) :=
  tie_run1.bind (fun r => update tie_env r.1 none none (fun _ => false))

/-- `del_env1`/`del_env2`: directory `a` first holds the single source file
`x.py`, which is then deleted. -/
def del_env1 : Env :=
  { src := { files := ["a/x.py"], dirs := ["a"] },
    analyze := fun p => if p = "a/x.py" then some [("m", some 7)] else none,
    is_test := fun _ => false }

def del_env2 : Env :=
  { src := { files := [], dirs := ["a"] },
    analyze := fun _ => none,
    is_test := fun _ => false }

/-- Build the store for `a/x.py`, … -/
def del_run1 : Option (St × List String) :=
  update del_env1 St.empty none none (fun _ => false)

/-- … then delete the file and run the incremental
`update({"a/x.py"}, …)`. -/
def del_run2 : Option (St × List String) :=
  del_run1.bind (fun r => update del_env2 r.1 (some ["a/x.py"]) none (fun _ => false))

/-- Two consecutive source commits `c1`, `c2` (with `c1` the parent of
`c2` and `p0` the parent of `c1`) for the replay-stream claims. -/
def c4_commits : List SrcC := [⟨"c1", "first"⟩, ⟨"c2", "second"⟩]

def c4_pairs : List (String × SrcC) :=
  mk_pairs c4_commits (fun s => if s = "c1" then some "p0" else none) "EMPTY"

end Gradon

namespace Gradon

/-! ## Claim theorems -/

set_option maxRecDepth 4000

/-- **C1** — the claimed invariant fails on the code.  After a single
`update(ALL)` of a fresh store over `tie_env`, the root directory holds the
FileRecord of `x.py` and its stored `TOTAL` is `{m: 2}`; the immediate
subdirectory `a` has data (`SUBTREE_TOTAL = {m: 3}`); yet the stored root
`SUBTREE_TOTAL` is `{m: 2}`, not `TOTAL + a's SUBTREE_TOTAL = {m: 5}`:
the heap tie between `"."` and `"a"` (both key `-1`) makes
`_aggregate_subtrees` process the root before its child, so the root
consumes the child's not-yet-written subtree aggregate. -/
theorem C1_subtree_invariant_violated_at_root :
    tie_run1.map (fun r => peek_stats r.1 "./x.py") = some (some [("m", some 2)]) ∧
    tie_run1.map (fun r => peek_stats r.1 "./TOTAL") = some (some [("m", some 2)]) ∧
    tie_run1.map (fun r => peek_stats r.1 "a/SUBTREE_TOTAL") = some (some [("m", some 3)]) ∧
    tie_run1.map (fun r => peek_stats r.1 "./SUBTREE_TOTAL") = some (some [("m", some 2)]) ∧
    ([("m", some 2)] : Series) ≠ add_fill [("m", some 2)] [("m", some 3)] :=
  ⟨by decide, by decide, by decide, by decide, by decide⟩

/-- **C2** — the child-before-parent processing order fails on the code.
The dirty set produced by `update(ALL)` over `tie_env` is `{"a", "."}`;
seeding `_aggregate_subtrees` with it processes the root `"."` *before*
its child `"a"` (`(-1, ".") < (-1, "a")` in Python's tuple order), so the
parent reads the child's subtree aggregate before it is final. -/
theorem C2_root_processed_before_child :
    tie_run1.map (fun r => r.2) = some ["a", "."] ∧
    (aggregate_subtrees St.empty ["a", "."]).2.2 = [".", "a"] ∧
    parent_dir "a" = "." := by
  decide

/-- **C3** — `update(ALL)` twice is not a no-op.  On `tie_env`, the first
run stores root `SUBTREE_TOTAL = {m: 2}` (the tie bug of C1/C2); the second
run, over the identical source tree, rewrites it to `{m: 5}` — the snapshot
store content differs between the two runs. -/
theorem C3_update_all_not_idempotent :
    tie_run1.map (fun r => alist_get r.1.fs.disk.files "SUBTREE_TOTAL.stats.yaml")
      = some (some (FData.stats [("m", some 2)])) ∧
    tie_run2.map (fun r => alist_get r.1.fs.disk.files "SUBTREE_TOTAL.stats.yaml")
      = some (some (FData.stats [("m", some 5)])) := by
  decide

/-- **C6** — deleting a tracked file removes neither its stats record nor
its method list from the snapshot store.  After `del_run2` (source file
`a/x.py` deleted, `update({"a/x.py"})` run), both `a/x.py.stats.yaml` and
`a/x.py.methods.yaml` are still in the store's working tree:
`GitStatsFileSystem.rm` splats the path string into characters
(`self._abs_file_path(*path)`), producing an absolute path that never
exists, so the record file survives (it only disappears from the in-memory
listing cache); and `_py_method_files` filters raw names with
`f.endswith('.py')`, which never matches `….py.methods.yaml`, so the
method list is never even scheduled for removal. -/
theorem C6_stale_record_and_method_list_not_removed :
    del_run2.map (fun r =>
      (alist_get r.1.fs.disk.files "a/x.py.stats.yaml",
       alist_get r.1.fs.disk.files "a/x.py.methods.yaml",
       (py_method_files r.1 "a").1))
    = some (some (FData.stats [("m", some 7)]), some FData.methods, []) := by
  decide

/-- **C8** — pruning fails on the code.  After `del_run2` leaves directory
`a` with no FileRecords: the three `TOTAL*` files and the `SUBTREE_*`
files of `a` are still in the store's working tree (the `rm` splat bug of
C6 — the adapter view `peek_stats` does report them gone); and although
`_aggregate_subtree` called `rmdir` for the data-less subdirectory `a`,
the root's cached directory listing still shows `a`
(`CachedFileSystemMixin.rmdir` looks up `os.path.dirname('a') = ''`
instead of `'.'`, and the on-disk `os.rmdir` of the non-empty directory is
silently ignored). -/
theorem C8_empty_directory_not_pruned :
    del_run2.map (fun r => alist_get r.1.fs.disk.files "a/TOTAL.stats.yaml")
      = some (some (FData.stats [("m", some 7)])) ∧
    del_run2.map (fun r => alist_get r.1.fs.disk.files "a/SUBTREE_TOTAL.stats.yaml")
      = some (some (FData.stats [("m", some 7)])) ∧
    del_run2.map (fun r => peek_stats r.1 "a/SUBTREE_TOTAL") = some none ∧
    del_run2.map (fun r => decide ("a" ∈ (r.1.fs.ls_dirs ".").1)) = some true := by
  decide

/-! ### Supporting lemmas for the provenance claim -/

theorem str_lines_aux_no_newline {l : List Char} (h : '\n' ∉ l) :
    str_lines_aux l = [l] := by
  induction l with
  | nil => rfl
  | cons c rest ih =>
    have hc : ¬ c = '\n' := fun hh => h (hh ▸ List.mem_cons_self _ _)
    have ih2 := ih (fun hm => h (List.mem_cons_of_mem _ hm))
    simp [str_lines_aux, if_neg hc, ih2]

theorem str_lines_aux_append_newline {a b : List Char} (h : '\n' ∉ a) :
    str_lines_aux (a ++ '\n' :: b) = a :: str_lines_aux b := by
  induction a with
  | nil => simp [str_lines_aux]
  | cons c rest ih =>
    have hc : ¬ c = '\n' := fun hh => h (hh ▸ List.mem_cons_self _ _)
    have ih2 := ih (fun hm => h (List.mem_cons_of_mem _ hm))
    simp [str_lines_aux, if_neg hc, ih2]

theorem catchup_msg_lines {s : String} (h : '\n' ∉ s.data) :
    str_lines (RCommit.catchup s).msg = ["[ignore] " ++ s, ""] := by
  show str_lines ("[ignore] " ++ s ++ "\n") = _
  unfold str_lines
  have hd : ("[ignore] " ++ s ++ "\n").data
      = ("[ignore] " ++ s).data ++ '\n' :: [] := rfl
  have hnm : '\n' ∉ ("[ignore] " ++ s).data := by
    have : ("[ignore] " ++ s).data = "[ignore] ".data ++ s.data := rfl
    rw [this]
    intro hmem
    rcases List.mem_append.mp hmem with h1 | h1
    · exact absurd h1 (by decide)
    · exact h h1
  rw [hd, str_lines_aux_append_newline hnm]
  rfl

theorem visible_msg_lines {s m : String} (h : '\n' ∉ s.data) :
    str_lines (RCommit.visible s m).msg = s :: str_lines m := by
  show str_lines (s ++ "\n" ++ m) = _
  unfold str_lines
  have hd : (s ++ "\n" ++ m).data = (s.data ++ ['\n']) ++ m.data := rfl
  rw [hd, List.append_assoc]
  rw [show (['\n'] ++ m.data : List Char) = '\n' :: m.data from rfl]
  rw [str_lines_aux_append_newline h]
  rfl

theorem isPrefixOf_self : ∀ l : List Char, l.isPrefixOf l = true := by
  intro l
  induction l with
  | nil => rfl
  | cons c rest ih => simp [List.isPrefixOf, ih]

theorem eq_nil_of_isPrefixOf_nil {p : List Char}
    (h : p.isPrefixOf ([] : List Char) = true) : p = [] := by
  cases p with
  | nil => rfl
  | cons c rest => simp [List.isPrefixOf] at h

theorem isPrefixOf_cons_cases {p : List Char} {c : Char} {t : List Char}
    (h : p.isPrefixOf (c :: t) = true) : p = [] ∨ ∃ q, p = c :: q := by
  cases p with
  | nil => exact Or.inl rfl
  | cons a as =>
    right
    simp [List.isPrefixOf] at h
    exact ⟨as, by rw [h.1]⟩

theorem takeWhile_append_of_all {p : Char → Bool} :
    ∀ {l₁ l₂ : List Char}, (∀ a ∈ l₁, p a = true) →
    (l₁ ++ l₂).takeWhile p = l₁ ++ l₂.takeWhile p := by
  intro l₁
  induction l₁ with
  | nil => intro l₂ _; rfl
  | cons c rest ih =>
    intro l₂ hall
    have hc := hall c (List.mem_cons_self _ _)
    simp only [List.cons_append, List.takeWhile_cons, hc, if_pos]
    rw [ih (fun a ha => hall a (List.mem_cons_of_mem _ ha))]

theorem find?_eq_of_unique {α : Type} (l : List α) (p : α → Bool) (c : α)
    (hc : c ∈ l) (hp : p c = true) (huniq : ∀ x ∈ l, p x = true → x = c) :
    l.find? p = some c := by
  induction l with
  | nil => simp at hc
  | cons x xs ih =>
    by_cases hx : p x = true
    · have hxc : x = c := huniq x (List.mem_cons_self _ _) hx
      subst hxc
      simp [List.find?_cons_of_pos _ hx]
    · have hxb : p x = false := by
        cases hpx : p x
        · rfl
        · exact absurd hpx hx
      have hcx : c ∈ xs := by
        rcases List.mem_cons.mp hc with h1 | h1
        · subst h1; exact absurd hp hx
        · exact h1
      rw [List.find?_cons_of_neg _ (by simp [hxb])]
      exact ih hcx (fun y hy hpy => huniq y (List.mem_cons_of_mem _ hy) hpy)

theorem string_eq_empty_of_data_nil {s : String} (h : s.data = []) : s = "" := by
  cases s with
  | mk d =>
    cases h
    rfl

/-- **C4** (counterexample) — the claim's catch-up discipline does not
hold of the code.  With the two-commit range `c1, c2`, the second pair
`(c1, c2)` follows the store's head (the visible commit of the first pair
encodes `c1`), yet an `[ignore]` catch-up commit for `c2` is still
emitted: the loop emits one for *every* pair in incremental mode. -/
theorem C4_catchup_emitted_for_following_pair :
    c4_pairs = [("p0", ⟨"c1", "first"⟩), ("c1", ⟨"c2", "second"⟩)] ∧
    head_before none c4_pairs 1 = some "c1" ∧
    RCommit.catchup "c2" ∈ replay_commits true c4_pairs ∧
    ¬ spec_no_catchup_when_following none true c4_pairs := by
  refine ⟨by decide, by decide, by decide, ?_⟩
  unfold spec_no_catchup_when_following
  decide

/-- **C4** (amended) — in incremental mode the replay emits exactly one
`[ignore]` catch-up commit per `(previous, current)` pair, unconditionally
(whether or not `previous` matches the store's head); with `incremental`
unset it emits none. -/
theorem C4_catchup_commit_every_pair (incremental : Bool)
    (pairs : List (String × SrcC)) :
    (replay_commits incremental pairs).filter RCommit.is_catchup
      = if incremental then pairs.map (fun pc => RCommit.catchup pc.2.hexsha)
        else [] := by
  induction pairs with
  | nil => cases incremental <;> simp [replay_commits]
  | cons pc rest ih =>
    cases incremental with
    | false =>
      simp only [if_neg Bool.false_ne_true] at ih
      simp [replay_commits, RCommit.is_catchup, List.flatMap_cons,
        List.filter_append] at ih ⊢
      exact ih
    | true =>
      simp only [if_pos rfl] at ih
      simp [replay_commits, RCommit.is_catchup, List.flatMap_cons,
        List.filter_append] at ih ⊢
      exact ih

/-- **C7** — the delta reconstructor emits, for one changed record pair,
exactly one record per distinct non-null path, whose delta is
`(after - before) * sign` with a missing side defaulting to a same-shaped
zero series and sign `+1` for the new/kept path, `-1` for the removed one
(filters unset); and the rows of a whole snapshot commit are exactly the
concatenation of the per-pair rows. -/
theorem C7_delta_records_match_spec (line_changes : List (String × LineStat))
    (test_pat : String → Bool) (prev_file curr_file : String → Series) :
    (∀ src dest : Option String, src ≠ none ∨ dest ≠ none →
      ∃ rows,
        stats_rows_for_pair line_changes none test_pat prev_file curr_file
          src dest = some rows ∧
        rows.map (fun r => (r.filename, r.delta))
          = spec_delta_records prev_file curr_file src dest) ∧
    (∀ changed : List (Option String × Option String),
      (∀ pr ∈ changed, pr.1 ≠ none ∨ pr.2 ≠ none) →
      ∃ rows,
        stats_rows_for_commit line_changes none test_pat prev_file curr_file
          changed = some rows ∧
        rows.map (fun r => (r.filename, r.delta))
          = changed.flatMap
              (fun pr => spec_delta_records prev_file curr_file pr.1 pr.2)) := by
  have hpair : ∀ src dest : Option String, src ≠ none ∨ dest ≠ none →
      ∃ rows,
        stats_rows_for_pair line_changes none test_pat prev_file curr_file
          src dest = some rows ∧
        rows.map (fun r => (r.filename, r.delta))
          = spec_delta_records prev_file curr_file src dest := by
    intro src dest h
    cases src with
    | none =>
      cases dest with
      | none => simp at h
      | some d =>
        refine ⟨_, rfl, ?_⟩
        simp [stats_rows_for_pair, spec_delta_records]
    | some s =>
      cases dest with
      | none =>
        refine ⟨_, rfl, ?_⟩
        simp [stats_rows_for_pair, spec_delta_records]
      | some d =>
        refine ⟨_, rfl, ?_⟩
        by_cases hsd : d = s
        · simp [stats_rows_for_pair, spec_delta_records, hsd]
        · have : ¬ (some d = some s) := by simp [hsd]
          simp [stats_rows_for_pair, spec_delta_records, this]
  refine ⟨hpair, ?_⟩
  intro changed hall
  induction changed with
  | nil => exact ⟨[], rfl, rfl⟩
  | cons pr rest ih =>
    rcases ih (fun q hq => hall q (List.mem_cons_of_mem _ hq)) with ⟨rest_rows, hr1, hr2⟩
    rcases hpair pr.1 pr.2 (hall pr (List.mem_cons_self _ _)) with ⟨rows, hp1, hp2⟩
    refine ⟨rows ++ rest_rows, ?_, ?_⟩
    · simp [stats_rows_for_commit] at hr1 ⊢
      rw [hp1, hr1]
    · simp [List.map_append, hp2, hr2]

/-- Witness for C7 at a concrete rename pair. -/
theorem C7_delta_records_match_spec_witness :
    ∃ rows,
      stats_rows_for_pair [] none (fun _ => false)
        (fun _ => [("k", some 1)]) (fun _ => [("k", some 4)])
        (some "a.py.stats.yaml") (some "b.py.stats.yaml") = some rows ∧
      rows.map (fun r => (r.filename, r.delta))
        = spec_delta_records (fun _ => [("k", some 1)]) (fun _ => [("k", some 4)])
            (some "a.py.stats.yaml") (some "b.py.stats.yaml") :=
  (C7_delta_records_match_spec [] (fun _ => false)
      (fun _ => [("k", some 1)]) (fun _ => [("k", some 4)])).1
    (some "a.py.stats.yaml") (some "b.py.stats.yaml") (Or.inl (by decide))

/-- **C9** — the commit-message provenance contract.  (1) Every visible
replay commit's message is the source sha, a newline, and the original
message, and (for a non-empty, whitespace-free sha) its first
whitespace-delimited token is the source sha.  (2) `get_rev_for_sha`
(`git log --grep='^'+sha`) never answers with an `[ignore]`-tagged
catch-up commit, since no line of a catch-up message can start with a
non-empty sha that does not itself begin with `'['`.  (3) When the queried
sha is encoded by exactly one commit of the store, the lookup returns that
very commit. -/
theorem C9_commit_message_provenance (incremental : Bool)
    (pairs : List (String × SrcC)) (sha : String) :
    (∀ pc ∈ pairs,
      (RCommit.visible pc.2.hexsha pc.2.message).msg
          = pc.2.hexsha ++ "\n" ++ pc.2.message ∧
      (pc.2.hexsha ≠ "" → (∀ ch ∈ pc.2.hexsha.data, ch.isWhitespace = false) →
        first_token (RCommit.visible pc.2.hexsha pc.2.message).msg
          = pc.2.hexsha)) ∧
    (sha ≠ "" → str_starts_with sha "[" = false →
      (∀ pc ∈ pairs, '\n' ∉ pc.2.hexsha.data) →
      ∀ c, get_rev_for_sha (replay_store incremental pairs) sha = some c →
        c.is_catchup = false) ∧
    (∀ orig, '\n' ∉ sha.data →
      RCommit.visible sha orig ∈ replay_store incremental pairs →
      (∀ c ∈ replay_store incremental pairs,
        (str_lines c.msg).any (fun l => str_starts_with l sha) = true →
        c = RCommit.visible sha orig) →
      get_rev_for_sha (replay_store incremental pairs) sha
        = some (RCommit.visible sha orig)) := by
  refine ⟨?_, ?_, ?_⟩
  · -- (1) the message convention
    intro pc _
    refine ⟨rfl, ?_⟩
    intro hne hws
    unfold first_token RCommit.msg
    have hd : (pc.2.hexsha ++ "\n" ++ pc.2.message).data
        = pc.2.hexsha.data ++ '\n' :: pc.2.message.data := by
      have h1 : (pc.2.hexsha ++ "\n" ++ pc.2.message).data
          = (pc.2.hexsha.data ++ ['\n']) ++ pc.2.message.data := rfl
      rw [h1, List.append_assoc]
      rfl
    rw [hd, takeWhile_append_of_all (by
      intro a ha
      simp [hws a ha])]
    have : (('\n' :: pc.2.message.data).takeWhile fun c => ¬ c.isWhitespace)
        = [] := by
      simp [List.takeWhile_cons]
    rw [this, List.append_nil]
  · -- (2) never a catch-up commit
    intro hne hbr hnl c hfind
    have hmem := List.mem_of_find?_eq_some hfind
    have hpred := List.find?_some hfind
    rw [replay_store, List.mem_reverse] at hmem
    rcases List.mem_flatMap.mp hmem with ⟨pc, hpc, hc⟩
    rcases List.mem_append.mp hc with h1 | h1
    · -- c is the catch-up commit of `pc`: derive a contradiction
      cases incremental with
      | false => simp at h1
      | true =>
        simp at h1
        subst h1
        rw [catchup_msg_lines (hnl pc hpc)] at hpred
        simp [List.any] at hpred
        rcases hpred with h2 | h2
        · -- a line `[ignore] …` starts with `sha`
          unfold str_starts_with at h2
          have hdd : ("[ignore] " ++ pc.2.hexsha).data
              = '[' :: ("ignore] " ++ pc.2.hexsha).data := rfl
          rw [hdd] at h2
          rcases isPrefixOf_cons_cases h2 with h3 | ⟨q, h3⟩
          · exact absurd (string_eq_empty_of_data_nil h3) hne
          · have : str_starts_with sha "[" = true := by
              unfold str_starts_with
              rw [h3]
              simp [List.isPrefixOf]
            rw [this] at hbr
            cases hbr
        · -- the empty final line starts with `sha`
          unfold str_starts_with at h2
          have h3 : ("" : String).data = [] := rfl
          rw [h3] at h2
          exact absurd (string_eq_empty_of_data_nil (eq_nil_of_isPrefixOf_nil h2)) hne
    · simp at h1
      subst h1
      rfl
  · -- (3) the unique encoding commit is returned
    intro orig hnl hin huniq
    unfold get_rev_for_sha
    apply find?_eq_of_unique _ _ _ hin
    · rw [visible_msg_lines hnl]
      simp [List.any]
      left
      unfold str_starts_with
      exact isPrefixOf_self sha.data
    · exact huniq

/-- Witness for C9 on the two-commit replay of `c4_pairs`, querying the
sha `c2`. -/
theorem C9_commit_message_provenance_witness :
    first_token (RCommit.visible "c2" "second").msg = "c2" ∧
    (∀ c, get_rev_for_sha (replay_store true c4_pairs) "c2" = some c →
      c.is_catchup = false) ∧
    get_rev_for_sha (replay_store true c4_pairs) "c2"
      = some (RCommit.visible "c2" "second") := by
  have h := C9_commit_message_provenance true c4_pairs "c2"
  refine ⟨?_, ?_, ?_⟩
  · exact (h.1 ("c1", ⟨"c2", "second"⟩) (by decide)).2 (by decide) (by decide)
  · exact h.2.1 (by decide) (by decide) (by decide)
  · exact h.2.2 "second" (by decide) (by decide) (by decide)

/-! ### Supporting lemmas for the adapter-cache claim -/

theorem alist_get_cons {α : Type} (kv : String × α) (rest : List (String × α)) (k : String) :
    alist_get (kv :: rest) k = if kv.1 = k then some kv.2 else alist_get rest k := by
  by_cases h : kv.1 = k
  · simp [alist_get, List.find?_cons_of_pos, h]
  · simp [alist_get, List.find?_cons_of_neg, h]

theorem alist_get_map_replace {α : Type} (l : List (String × α)) (k k' : String) (v : α) :
    alist_get (l.map (fun kv => if kv.1 = k then (k, v) else kv)) k'
      = if k' = k then (if (alist_get l k).isSome then some v else none)
        else alist_get l k' := by
  induction l with
  | nil => by_cases hk : k' = k <;> simp [alist_get, hk]
  | cons kv rest ih =>
    by_cases hk : kv.1 = k <;> by_cases hk' : k' = k <;>
      by_cases hkv : kv.1 = k' <;>
      simp_all [alist_get_cons, List.map_cons]

theorem alist_get_set {α : Type} (l : List (String × α)) (k k' : String) (v : α) :
    alist_get (alist_set l k v) k'
      = if k' = k then some v else alist_get l k' := by
  unfold alist_set
  by_cases hp : (l.find? (fun kv => kv.1 = k)).isSome
  · rw [if_pos hp, alist_get_map_replace]
    have hs : (alist_get l k).isSome := by
      unfold alist_get
      cases hf : l.find? (fun kv => kv.1 = k)
      · rw [hf] at hp; cases hp
      · simp
    by_cases hk' : k' = k <;> simp [hk', hs]
  · rw [if_neg hp]
    have hnone : l.find? (fun kv => decide (kv.1 = k)) = none := by
      cases hf : l.find? (fun kv => decide (kv.1 = k))
      · rfl
      · rw [hf] at hp; simp at hp
    induction l with
    | nil => by_cases hk' : k' = k <;> simp [alist_get, alist_get_cons, hk', Ne.symm]
    | cons kv rest ih =>
      have hkv : ¬ (kv.1 = k) := by
        intro hh
        rw [List.find?_cons_of_pos _ (by simpa using hh)] at hnone
        cases hnone
      have hrest : rest.find? (fun kv => decide (kv.1 = k)) = none := by
        rw [List.find?_cons_of_neg _ (by simpa using hkv)] at hnone
        exact hnone
      have hp' : ¬ (rest.find? (fun kv => kv.1 = k)).isSome := by
        simp [hrest]
      rw [List.cons_append, alist_get_cons, alist_get_cons]
      by_cases hh : kv.1 = k'
      · have hne : ¬ (k' = k) := fun he => hkv (hh.trans he)
        simp [hh, hne]
      · simp [hh, ih hp' hrest]

theorem alist_get_erase {α : Type} (l : List (String × α)) (k k' : String) :
    alist_get (alist_erase l k) k'
      = if k' = k then none else alist_get l k' := by
  induction l with
  | nil => by_cases hk : k' = k <;> simp [alist_get, alist_erase, hk]
  | cons kv rest ih =>
    unfold alist_erase at ih ⊢
    by_cases hkvk : kv.1 = k
    · rw [List.filter_cons_of_neg (by simpa using hkvk)]
      by_cases hk' : k' = k
      · simpa [hk'] using ih
      · rw [alist_get_cons]
        have : ¬ (kv.1 = k') := by
          rw [hkvk]; exact fun hh => hk' hh.symm
        simpa [this, hk'] using ih
    · rw [List.filter_cons_of_pos (by simpa using hkvk), alist_get_cons, alist_get_cons]
      by_cases hkv' : kv.1 = k'
      · have hk' : ¬ (k' = k) := fun hh => hkvk (hkv'.trans hh)
        simp [hkv', hk']
      · simp only [if_neg hkv']
        simpa [hkv'] using ih

theorem str_append_right_cancel {a b c : String} (h : a ++ c = b ++ c) : a = b := by
  have hd : a.data ++ c.data = b.data ++ c.data := congrArg String.data h
  have hab : a.data = b.data := by
    have := congrArg List.reverse hd
    simp only [List.reverse_append] at this
    have h2 := List.append_cancel_left this
    have := congrArg List.reverse h2
    simpa using this
  cases a with
  | mk da =>
    cases b with
    | mk db =>
      simp only at hab
      rw [hab]

theorem record_key_ne {p q : String} (h : ¬ p = q) :
    ¬ (p ++ ".stats.yaml" = q ++ ".stats.yaml") :=
  fun hh => h (str_append_right_cancel hh)

theorem plain_get_set (fs : PFS) (p q : String) (s : Series)
    (hp : good_path p) (hq : good_path q) :
    plain_get (plain_set fs p s) q = if q = p then some s else plain_get fs q := by
  unfold plain_get plain_set pfs_read pfs_write
  rw [hp.2, hq.2, alist_get_set]
  by_cases hqp : q = p
  · subst hqp
    simp
  · rw [if_neg (record_key_ne hqp), if_neg hqp]

theorem plain_get_rm (fs : PFS) (p q : String)
    (hp : good_path p) (hq : good_path q) :
    plain_get (plain_rm fs p) q = if q = p then none else plain_get fs q := by
  unfold plain_get plain_rm pfs_read pfs_rm
  rw [hp.2, hq.2, alist_get_erase]
  by_cases hqp : q = p
  · subst hqp
    simp
  · rw [if_neg (record_key_ne hqp), if_neg hqp]

theorem cached_set_fs (σ : CSt) (p : String) (s : Series) (hp : good_path p) :
    (cached_set σ p s).fs = plain_set σ.fs p s := by
  unfold cached_set
  rw [hp.1]

theorem cached_rm_fs (σ : CSt) (p : String) :
    (cached_rm σ p).fs = plain_rm σ.fs p := rfl

theorem cached_set_coherent {σ : CSt} {p : String} (s : Series) (hp : good_path p)
    (hco : cache_coherent σ) : cache_coherent (cached_set σ p s) := by
  intro q hq
  have hcache : alist_get (cached_set σ p s).cache q
      = if q = p then some (CEntry.pickled (some s)) else alist_get σ.cache q := by
    unfold cached_set
    rw [hp.1, alist_get_set]
  by_cases hqp : q = p
  · subst hqp
    rw [hcache, if_pos rfl]
    show plain_get (cached_set σ q s).fs q = some s
    rw [cached_set_fs σ q s hp, plain_get_set σ.fs q q s hp hp, if_pos rfl]
  · rw [hcache, if_neg hqp]
    have h := hco q hq
    cases hc : alist_get σ.cache q with
    | none => trivial
    | some e =>
      rw [hc] at h
      cases e with
      | marker =>
        show plain_get (cached_set σ p s).fs q = none
        rw [cached_set_fs σ p s hp, plain_get_set σ.fs p q s hp hq, if_neg hqp]
        exact h
      | pickled v =>
        show plain_get (cached_set σ p s).fs q = v
        rw [cached_set_fs σ p s hp, plain_get_set σ.fs p q s hp hq, if_neg hqp]
        exact h

theorem cached_rm_coherent {σ : CSt} {p : String} (hp : good_path p)
    (hco : cache_coherent σ) : cache_coherent (cached_rm σ p) := by
  intro q hq
  have hcache : alist_get (cached_rm σ p).cache q
      = if q = p then some CEntry.marker else alist_get σ.cache q := by
    unfold cached_rm
    rw [alist_get_set]
  by_cases hqp : q = p
  · subst hqp
    rw [hcache, if_pos rfl]
    show plain_get (cached_rm σ q).fs q = none
    rw [cached_rm_fs, plain_get_rm σ.fs q q hp hp, if_pos rfl]
  · rw [hcache, if_neg hqp]
    have h := hco q hq
    cases hc : alist_get σ.cache q with
    | none => trivial
    | some e =>
      rw [hc] at h
      cases e with
      | marker =>
        show plain_get (cached_rm σ p).fs q = none
        rw [cached_rm_fs, plain_get_rm σ.fs p q hp hq, if_neg hqp]
        exact h
      | pickled v =>
        show plain_get (cached_rm σ p).fs q = v
        rw [cached_rm_fs, plain_get_rm σ.fs p q hp hq, if_neg hqp]
        exact h

theorem cached_get_eq (σ : CSt) (p : String) (hp : good_path p)
    (hco : cache_coherent σ) :
    cached_get σ p = (plain_get σ.fs p,
      match alist_get σ.cache p with
      | none => { σ with cache := alist_set σ.cache p (CEntry.pickled (plain_get σ.fs p)) }
      | some _ => σ) := by
  cases hc : alist_get σ.cache p with
  | none => simp [cached_get, hp.1, hc]
  | some e =>
    cases e with
    | marker =>
      have h2 : plain_get σ.fs p = none := by
        have h := hco p hp
        rw [hc] at h
        exact h
      simp [cached_get, hp.1, hc, h2]
    | pickled v =>
      have h2 : plain_get σ.fs p = v := by
        have h := hco p hp
        rw [hc] at h
        exact h
      simp [cached_get, hp.1, hc, h2]

theorem cached_get_coherent {σ : CSt} {p : String} (hp : good_path p)
    (hco : cache_coherent σ) : cache_coherent (cached_get σ p).2 := by
  rw [cached_get_eq σ p hp hco]
  cases hc : alist_get σ.cache p with
  | none =>
    intro q hq
    show (match alist_get (alist_set σ.cache p (CEntry.pickled (plain_get σ.fs p))) q with
      | some CEntry.marker => plain_get σ.fs q = none
      | some (CEntry.pickled v) => plain_get σ.fs q = v
      | none => True)
    rw [alist_get_set]
    by_cases hqp : q = p
    · subst hqp
      rw [if_pos rfl]
    · rw [if_neg hqp]
      have h := hco q hq
      cases hcq : alist_get σ.cache q with
      | none => trivial
      | some e =>
        rw [hcq] at h
        cases e with
        | marker => exact h
        | pickled v => exact h
  | some e => exact hco

/-- C10: counterexample.  Over arbitrary paths the caching adapter does
**not** refine the plain adapter: `CachedStatsFSAdapterMixin.rm` is the one
method that skips `_normalize_path`, so after `set("a", s)` the call
`rm("./a")` stores its deletion marker under the raw key `"./a"` while the
backing file `a.stats.yaml` is removed; a subsequent `get("a")` hits the
stale pickled entry under `"a"` and returns the deleted value `s`, where
the uncached adapter returns the absent default `None`. -/
theorem C10_cached_rm_returns_stale_value :
    (run_cached [AOp.set "a" [("k", some 1)], AOp.rm "./a", AOp.get "a"]
        ⟨[], []⟩).1 = [some [("k", some 1)]] ∧
    (run_plain [AOp.set "a" [("k", some 1)], AOp.rm "./a", AOp.get "a"]
        []).1 = [none] := by
  decide

/-- C10 (amended): for every sequence of `set`/`rm`/`get` adapter calls whose
paths are left unchanged by `_normalize_path` (no `./` segments), starting
from a cache that is coherent with the backing file system, the caching
adapter (`CachedStatsFSAdapterMixin` over `StatsFSAdapter`) returns exactly
the `get` results of the uncached adapter run against the same backing file
system, and both leave the backing file system in the same state.  In
particular on such paths a `get` after `rm` returns the absent default. -/
theorem C10_cached_adapter_equiv_on_normalized_paths :
    ∀ (ops : List AOp) (σ : CSt),
      (∀ op ∈ ops, good_path (aop_path op)) →
      cache_coherent σ →
      (run_cached ops σ).1 = (run_plain ops σ.fs).1 ∧
      (run_cached ops σ).2.fs = (run_plain ops σ.fs).2 := by
  intro ops
  induction ops with
  | nil => intro σ _ _; exact ⟨rfl, rfl⟩
  | cons op rest ih =>
    intro σ hgood hco
    have hop : good_path (aop_path op) := hgood op (List.mem_cons_self op rest)
    have hrest : ∀ o ∈ rest, good_path (aop_path o) :=
      fun o ho => hgood o (List.mem_cons_of_mem op ho)
    cases op with
    | set p s =>
      have hp : good_path p := hop
      have h := ih (cached_set σ p s) hrest (cached_set_coherent s hp hco)
      rw [cached_set_fs σ p s hp] at h
      exact h
    | rm p =>
      have hp : good_path p := hop
      have h := ih (cached_rm σ p) hrest (cached_rm_coherent hp hco)
      rw [cached_rm_fs σ p] at h
      exact h
    | get p =>
      have hp : good_path p := hop
      have heq := cached_get_eq σ p hp hco
      have hco2 : cache_coherent (cached_get σ p).2 := cached_get_coherent hp hco
      have hfs2 : (cached_get σ p).2.fs = σ.fs := by
        rw [heq]
        cases alist_get σ.cache p <;> rfl
      have h := ih (cached_get σ p).2 hrest hco2
      rw [hfs2] at h
      constructor
      · show (cached_get σ p).1 :: (run_cached rest (cached_get σ p).2).1
          = plain_get σ.fs p :: (run_plain rest σ.fs).1
        rw [h.1]
        congr 1
        rw [heq]
      · exact h.2

/-- C10 witness: the amended equivalence instantiated on the concrete call
sequence `set "a"`, `rm "a"`, `get "a"` from the empty state: both stacks
observe `[none]`. -/
theorem C10_cached_adapter_equiv_on_normalized_paths_witness :
    (run_cached [AOp.set "a" [("k", some 1)], AOp.rm "a", AOp.get "a"]
        ⟨[], []⟩).1
      = (run_plain [AOp.set "a" [("k", some 1)], AOp.rm "a", AOp.get "a"]
        []).1 :=
  (C10_cached_adapter_equiv_on_normalized_paths
    [AOp.set "a" [("k", some 1)], AOp.rm "a", AOp.get "a"] ⟨[], []⟩
    (by intro op hop; fin_cases hop <;> exact ⟨rfl, rfl⟩)
    (fun _ _ => trivial)).1

/-! ### Supporting lemmas for the analysis-failure claim -/

theorem str_data_append (a b : String) : (a ++ b).data = a.data ++ b.data := by
  cases a
  cases b
  rfl

theorem str_ext {a b : String} (h : a.data = b.data) : a = b := by
  cases a with
  | mk da =>
    cases b with
    | mk db =>
      simp only at h
      rw [h]

theorem str_append_left_cancel {a b c : String} (h : a ++ b = a ++ c) : b = c := by
  have hd := congrArg String.data h
  rw [str_data_append, str_data_append] at hd
  exact str_ext (List.append_cancel_left hd)

theorem str_append_assoc (a b c : String) : a ++ b ++ c = a ++ (b ++ c) := by
  refine str_ext ?_
  rw [str_data_append, str_data_append, str_data_append, str_data_append,
    List.append_assoc]

theorem pjoin_right_inj {d a b : String} (h : pjoin d a = pjoin d b) : a = b := by
  unfold pjoin at h
  exact str_append_left_cancel h

/-- No path can carry both the `.methods.yaml` and the `.stats.yaml` name
shape: the two suffixes conflict. -/
theorem ends_methods_ne_stats (a b : String) :
    a ++ ".methods.yaml" ≠ b ++ ".stats.yaml" := by
  intro h
  have h1 : (".methods.yaml".data : List Char) <:+ (b ++ ".stats.yaml").data := by
    rw [← h, str_data_append]
    exact List.suffix_append _ _
  have h2 : (".stats.yaml".data : List Char) <:+ (b ++ ".stats.yaml").data := by
    rw [str_data_append]
    exact List.suffix_append _ _
  have h3 : (".stats.yaml".data : List Char) <:+ (".methods.yaml".data : List Char) :=
    List.suffix_of_suffix_length_le h2 h1 (by decide)
  exact absurd h3 (by decide)

theorem disk_write_files (d : Disk) (p : String) (c : FData) :
    (Disk.write d p c).files = alist_set d.files (normalize p) c := by
  show alist_set (if parent_dir (normalize p) = "." then d
      else d.mkdirs (parent_dir (normalize p))).files (normalize p) c
    = alist_set d.files (normalize p) c
  by_cases h : parent_dir (normalize p) = "."
  · rw [if_pos h]
  · rw [if_neg h]
    rfl

theorem adapter_get_none_fst (σ : St) (p : String) :
    (adapter_get σ p none).1 = peek_stats σ p := by
  simp only [adapter_get, peek_stats]
  cases alist_get σ.ad.cache (normalize p) with
  | none => rfl
  | some e => cases e <;> rfl

theorem peek_adapter_get_snd (σ : St) (p q : String) :
    peek_stats (adapter_get σ p none).2 q = peek_stats σ q := by
  simp only [adapter_get, peek_stats]
  cases h : alist_get σ.ad.cache (normalize p) with
  | none =>
    simp only
    rw [alist_get_set]
    by_cases hq : normalize q = normalize p
    · rw [if_pos hq, hq, h]
    · rw [if_neg hq]
  | some e => cases e <;> rfl

theorem peek_adapter_set_self (σ : St) (p q : String) (s : Series)
    (h : normalize q = normalize p) :
    peek_stats (adapter_set σ p s) q = some s := by
  simp only [adapter_set, peek_stats]
  rw [h, alist_get_set, if_pos rfl]

theorem peek_adapter_set_ne (σ : St) (p q : String) (s : Series)
    (hc : normalize q ≠ normalize p)
    (hd : normalize (normalize q ++ ".stats.yaml")
        ≠ normalize (normalize p ++ ".stats.yaml")) :
    peek_stats (adapter_set σ p s) q = peek_stats σ q := by
  simp only [adapter_set, peek_stats]
  rw [alist_get_set, if_neg hc]
  cases alist_get σ.ad.cache (normalize q) with
  | none =>
    simp only [fs_stats_read, FS.add_file, Disk.read, disk_write_files]
    rw [alist_get_set, if_neg hd]
  | some e => cases e <;> rfl

theorem peek_fs_add_file_ne (σ : St) (p : String) (c : FData) (q : String)
    (hd : normalize (normalize q ++ ".stats.yaml") ≠ normalize p) :
    peek_stats { σ with fs := σ.fs.add_file p c } q = peek_stats σ q := by
  simp only [peek_stats]
  cases alist_get σ.ad.cache (normalize q) with
  | none =>
    simp only [fs_stats_read, FS.add_file, Disk.read, disk_write_files]
    rw [alist_get_set, if_neg hd]
  | some e => cases e <;> rfl

theorem peek_adapter_rm_ne (σ : St) (p q : String) (hc : normalize q ≠ p) :
    peek_stats (adapter_rm σ p) q = peek_stats σ q := by
  simp only [adapter_rm, peek_stats]
  rw [alist_get_set, if_neg hc]
  cases alist_get σ.ad.cache (normalize q) with
  | none => rfl
  | some e => cases e <;> rfl

theorem peek_fs_ls_files (σ : St) (p q : String) :
    peek_stats { σ with fs := (σ.fs.ls_files p).2 } q = peek_stats σ q := by
  simp only [peek_stats, FS.ls_files]
  cases alist_get σ.fs.files_cache (normalize p) <;>
    cases alist_get σ.ad.cache (normalize q) with
  | none => rfl
  | some e => cases e <;> rfl

theorem peek_adapter_ls (σ : St) (p q : String) :
    peek_stats (adapter_ls σ p).2 q = peek_stats σ q :=
  peek_fs_ls_files σ p q

theorem peek_py_stats_files (σ : St) (p q : String) :
    peek_stats (py_stats_files σ p).2 q = peek_stats σ q :=
  peek_fs_ls_files σ p q

theorem peek_py_method_files (σ : St) (p q : String) :
    peek_stats (py_method_files σ p).2 q = peek_stats σ q :=
  peek_fs_ls_files σ p q

theorem visit_fold_preserves (env : Env) (dir pf : String)
    (hnf : normalize pf = pf)
    (hdf : normalize (pf ++ ".stats.yaml") = pf ++ ".stats.yaml") :
    ∀ (L : List String) (acc : St × Bool),
      (∀ g ∈ L,
        env.analyze (pjoin dir g) = none ∨
        (normalize (pjoin dir g) = pjoin dir g ∧
         normalize (pjoin dir g ++ ".stats.yaml") = pjoin dir g ++ ".stats.yaml" ∧
         normalize (pjoin dir (g ++ ".methods.yaml"))
           = pjoin dir (g ++ ".methods.yaml") ∧
         pjoin dir g ≠ pf)) →
      peek_stats (L.foldl (visit_step env dir) acc).1 pf = peek_stats acc.1 pf := by
  intro L
  induction L with
  | nil => intro acc _; rfl
  | cons g rest ih =>
    intro acc hL
    rw [List.foldl_cons, ih _ (fun x hx => hL x (List.mem_cons_of_mem g hx))]
    unfold visit_step
    cases ha : env.analyze (pjoin dir g) with
    | none => rfl
    | some s =>
      rcases hL g (List.mem_cons_self g rest) with hf | ⟨h1, h2, h3, h4⟩
      · rw [ha] at hf
        cases hf
      · have hc : normalize pf ≠ normalize (pjoin dir g) := by
          rw [hnf, h1]
          exact fun hh => h4 hh.symm
        have hd : normalize (normalize pf ++ ".stats.yaml")
            ≠ normalize (normalize (pjoin dir g) ++ ".stats.yaml") := by
          rw [hnf, hdf, h1, h2]
          exact fun hh => h4 (str_append_right_cancel hh).symm
        have hm : normalize (normalize pf ++ ".stats.yaml")
            ≠ normalize (pjoin dir (g ++ ".methods.yaml")) := by
          rw [hnf, hdf, h3]
          intro hh
          refine ends_methods_ne_stats ((dir ++ "/") ++ g) pf ?_
          rw [str_append_assoc]
          exact hh.symm
        exact (peek_fs_add_file_ne (adapter_set acc.1 (pjoin dir g) s)
            (pjoin dir (g ++ ".methods.yaml")) FData.methods pf hm).trans
          (peek_adapter_set_ne acc.1 (pjoin dir g) pf s hc hd)

theorem rm_fold_preserves (dir pf : String) (hnf : normalize pf = pf) :
    ∀ (L : List String) (σ : St),
      (∀ g ∈ L, pjoin dir g ≠ pf) →
      peek_stats (L.foldl (fun σ g => adapter_rm σ (pjoin dir g)) σ) pf
        = peek_stats σ pf := by
  intro L
  induction L with
  | nil => intro σ _; rfl
  | cons g rest ih =>
    intro σ hL
    rw [List.foldl_cons, ih _ (fun x hx => hL x (List.mem_cons_of_mem g hx))]
    refine peek_adapter_rm_ne σ (pjoin dir g) pf ?_
    rw [hnf]
    exact fun hh => hL g (List.mem_cons_self g rest) hh.symm

theorem dir_record_total_isSome (it : String → Bool) :
    ∀ (l : List (String × Series)) (t : Series × Series × Series),
      ∃ t2, dir_record_total it l (some t) = some t2 := by
  intro l
  induction l with
  | nil => intro t; exact ⟨t, rfl⟩
  | cons fs rest ih =>
    intro t
    cases fs with
    | mk f s => exact ih _

theorem aggregate_loop_spec (env : Env) (dir : String) (v : String → Series) :
    ∀ (files : List String) (σ : St) (t : Option (Series × Series × Series)),
      (∀ g ∈ files, peek_stats σ (pjoin dir g) = some (v g)) →
      ∃ σ2, aggregate_dir_loop env dir files σ t
          = some (σ2, dir_record_total env.is_test (files.map (fun g => (g, v g))) t)
        ∧ ∀ q, peek_stats σ2 q = peek_stats σ q := by
  intro files
  induction files with
  | nil => intro σ t _; exact ⟨σ, rfl, fun q => rfl⟩
  | cons g rest ih =>
    intro σ t hv
    have hfst : (adapter_get σ (pjoin dir g) none).1 = some (v g) := by
      rw [adapter_get_none_fst]
      exact hv g (List.mem_cons_self g rest)
    have hv2 : ∀ x ∈ rest,
        peek_stats (adapter_get σ (pjoin dir g) none).2 (pjoin dir x) = some (v x) := by
      intro x hx
      rw [peek_adapter_get_snd]
      exact hv x (List.mem_cons_of_mem g hx)
    obtain ⟨σ2, heq, hpk⟩ := ih (adapter_get σ (pjoin dir g) none).2
      (some (add_fill (totals_seed t (v g)).1 (v g),
        (if env.is_test g then add_fill (totals_seed t (v g)).2.1 (v g)
         else (totals_seed t (v g)).2.1),
        (if env.is_test g then (totals_seed t (v g)).2.2
         else add_fill (totals_seed t (v g)).2.2 (v g)))) hv2
    refine ⟨σ2, ?_, fun q => (hpk q).trans (peek_adapter_get_snd σ (pjoin dir g) q)⟩
    have hstep : aggregate_dir_loop env dir (g :: rest) σ t
        = match (adapter_get σ (pjoin dir g) none).1 with
          | none => none
          | some s => aggregate_dir_loop env dir rest (adapter_get σ (pjoin dir g) none).2
              (some (add_fill (totals_seed t s).1 s,
                (if env.is_test g then add_fill (totals_seed t s).2.1 s
                 else (totals_seed t s).2.1),
                (if env.is_test g then (totals_seed t s).2.2
                 else add_fill (totals_seed t s).2.2 s))) := rfl
    rw [hstep, hfst]
    exact heq

theorem visit_preserves_failed_record (env : Env) (σ : St) (dir f : String)
    (changed : List String) (pathsExcl : Option (String → Bool))
    (ignore : String → Bool)
    (hfail : env.analyze (pjoin dir f) = none)
    (hsrc : source_exists env.src dir f = true)
    (hmem : f ∈ changed)
    (hcleanc : ∀ g ∈ changed, normalize (pjoin dir g) = pjoin dir g)
    (hcleans : ∀ g ∈ changed,
      normalize (pjoin dir g ++ ".stats.yaml") = pjoin dir g ++ ".stats.yaml")
    (hcleanm : ∀ g ∈ changed,
      normalize (pjoin dir (g ++ ".methods.yaml"))
        = pjoin dir (g ++ ".methods.yaml")) :
    peek_stats (visit_files_in_dir env σ dir (some changed) pathsExcl ignore).1
        (pjoin dir f)
      = peek_stats σ (pjoin dir f) := by
  have hnf : normalize (pjoin dir f) = pjoin dir f := hcleanc f hmem
  have hdf : normalize (pjoin dir f ++ ".stats.yaml")
      = pjoin dir f ++ ".stats.yaml" := hcleans f hmem
  have hres : (visit_files_in_dir env σ dir (some changed) pathsExcl ignore).1
      = ((((py_stats_files (((changed.filter (fun g => source_exists env.src dir g)).filter (fun g =>
      str_ends_with g ".py" &&
      (match pathsExcl with | none => true | some ex => ! ex (pjoin dir g)) &&
      ! ignore (pjoin dir g))).foldl (visit_step env dir) (σ, false)).1 dir).1 ++ (py_method_files (py_stats_files (((changed.filter (fun g => source_exists env.src dir g)).filter (fun g =>
      str_ends_with g ".py" &&
      (match pathsExcl with | none => true | some ex => ! ex (pjoin dir g)) &&
      ! ignore (pjoin dir g))).foldl (visit_step env dir) (σ, false)).1 dir).2 dir).1).filter (fun g =>
      decide (g ∈ changed) && ! source_exists env.src dir g)).foldl (fun σ g => adapter_rm σ (pjoin dir g)) (py_method_files (py_stats_files (((changed.filter (fun g => source_exists env.src dir g)).filter (fun g =>
      str_ends_with g ".py" &&
      (match pathsExcl with | none => true | some ex => ! ex (pjoin dir g)) &&
      ! ignore (pjoin dir g))).foldl (visit_step env dir) (σ, false)).1 dir).2 dir).2) := rfl
  have hstale : ∀ g ∈ (((py_stats_files (((changed.filter (fun g => source_exists env.src dir g)).filter (fun g =>
      str_ends_with g ".py" &&
      (match pathsExcl with | none => true | some ex => ! ex (pjoin dir g)) &&
      ! ignore (pjoin dir g))).foldl (visit_step env dir) (σ, false)).1 dir).1 ++ (py_method_files (py_stats_files (((changed.filter (fun g => source_exists env.src dir g)).filter (fun g =>
      str_ends_with g ".py" &&
      (match pathsExcl with | none => true | some ex => ! ex (pjoin dir g)) &&
      ! ignore (pjoin dir g))).foldl (visit_step env dir) (σ, false)).1 dir).2 dir).1).filter (fun g =>
      decide (g ∈ changed) && ! source_exists env.src dir g)), pjoin dir g ≠ pjoin dir f := by
    intro g hg
    have hcond := (List.mem_filter.mp hg).2
    intro hh
    have hgf : g = f := pjoin_right_inj hh
    rw [hgf, hsrc] at hcond
    exact absurd hcond (by simp)
  have hfa : ∀ g ∈ ((changed.filter (fun g => source_exists env.src dir g)).filter (fun g =>
      str_ends_with g ".py" &&
      (match pathsExcl with | none => true | some ex => ! ex (pjoin dir g)) &&
      ! ignore (pjoin dir g))),
      env.analyze (pjoin dir g) = none ∨
      (normalize (pjoin dir g) = pjoin dir g ∧
       normalize (pjoin dir g ++ ".stats.yaml") = pjoin dir g ++ ".stats.yaml" ∧
       normalize (pjoin dir (g ++ ".methods.yaml"))
         = pjoin dir (g ++ ".methods.yaml") ∧
       pjoin dir g ≠ pjoin dir f) := by
    intro g hg
    have hgc : g ∈ changed := (List.mem_filter.mp (List.mem_filter.mp hg).1).1
    by_cases hgf : g = f
    · rw [hgf]
      exact Or.inl hfail
    · exact Or.inr ⟨hcleanc g hgc, hcleans g hgc, hcleanm g hgc,
        fun hh => hgf (pjoin_right_inj hh)⟩
  rw [hres,
    rm_fold_preserves dir (pjoin dir f) hnf _ _ hstale,
    peek_py_method_files, peek_py_stats_files,
    visit_fold_preserves env dir (pjoin dir f) hnf hdf _ _ hfa]

theorem aggregate_dir_invariant (env : Env) (σr : St) (dir : String)
    (v : String → Series) (files : List String)
    (hlist : (py_stats_files σr dir).1 = files)
    (hne : files ≠ [])
    (hv : ∀ g ∈ files, peek_stats σr (pjoin dir g) = some (v g))
    (hct : ∀ n ∈ (["TOTAL", "TOTAL_TEST", "TOTAL_NON_TEST"] : List String),
        normalize (pjoin dir n) = pjoin dir n ∧
        normalize (pjoin dir n ++ ".stats.yaml") = pjoin dir n ++ ".stats.yaml") :
    ∃ σ5 t,
      aggregate_dir env σr dir = some σ5 ∧
      dir_record_total env.is_test (files.map (fun g => (g, v g))) none = some t ∧
      peek_stats σ5 (pjoin dir "TOTAL") = some t.1 ∧
      peek_stats σ5 (pjoin dir "TOTAL_TEST") = some t.2.1 ∧
      peek_stats σ5 (pjoin dir "TOTAL_NON_TEST") = some t.2.2 := by
  have hv0 : ∀ g ∈ files, peek_stats (py_stats_files σr dir).2 (pjoin dir g)
      = some (v g) :=
    fun g hg => (peek_py_stats_files σr dir (pjoin dir g)).trans (hv g hg)
  obtain ⟨σ2, hloop, hpk⟩ :=
    aggregate_loop_spec env dir v files (py_stats_files σr dir).2 none hv0
  obtain ⟨t, ht⟩ : ∃ t,
      dir_record_total env.is_test (files.map (fun g => (g, v g))) none = some t := by
    cases files with
    | nil => exact absurd rfl hne
    | cons g rest =>
      exact dir_record_total_isSome env.is_test (rest.map (fun g => (g, v g))) _
  obtain ⟨hTn, hTs⟩ := hct "TOTAL" (by decide)
  obtain ⟨hUn, hUs⟩ := hct "TOTAL_TEST" (by decide)
  obtain ⟨hVn, hVs⟩ := hct "TOTAL_NON_TEST" (by decide)
  have hneTU : pjoin dir "TOTAL" ≠ pjoin dir "TOTAL_TEST" := by
    intro hh
    exact absurd (pjoin_right_inj hh) (by decide)
  have hneTV : pjoin dir "TOTAL" ≠ pjoin dir "TOTAL_NON_TEST" := by
    intro hh
    exact absurd (pjoin_right_inj hh) (by decide)
  have hneUV : pjoin dir "TOTAL_TEST" ≠ pjoin dir "TOTAL_NON_TEST" := by
    intro hh
    exact absurd (pjoin_right_inj hh) (by decide)
  refine ⟨adapter_set (adapter_set (adapter_set σ2
      (pjoin dir "TOTAL") t.1)
      (pjoin dir "TOTAL_TEST") t.2.1)
      (pjoin dir "TOTAL_NON_TEST") t.2.2, t, ?_, ht, ?_, ?_, ?_⟩
  · have hu : aggregate_dir env σr dir
        = match aggregate_dir_loop env dir (py_stats_files σr dir).1
            (py_stats_files σr dir).2 none with
          | none => none
          | some (σ1, totals?) =>
            if (py_stats_files σr dir).1.isEmpty then
              some (["TOTAL", "TOTAL_TEST", "TOTAL_NON_TEST"].foldl
                (fun σ n => adapter_rm σ (pjoin dir n)) σ1)
            else
              match totals? with
              | some tt =>
                some (adapter_set (adapter_set (adapter_set σ1
                  (pjoin dir "TOTAL") tt.1)
                  (pjoin dir "TOTAL_TEST") tt.2.1)
                  (pjoin dir "TOTAL_NON_TEST") tt.2.2)
              | none => none := rfl
    rw [hu, hlist, hloop, ht]
    cases files with
    | nil => exact absurd rfl hne
    | cons g rest => rfl
  · rw [peek_adapter_set_ne _ _ _ _
        (by rw [hTn, hVn]; exact hneTV)
        (by rw [hTn, hVn, hTs, hVs]
            exact fun hh => hneTV (str_append_right_cancel hh)),
      peek_adapter_set_ne _ _ _ _
        (by rw [hTn, hUn]; exact hneTU)
        (by rw [hTn, hUn, hTs, hUs]
            exact fun hh => hneTU (str_append_right_cancel hh)),
      peek_adapter_set_self _ _ _ _ rfl]
  · rw [peek_adapter_set_ne _ _ _ _
        (by rw [hUn, hVn]; exact hneUV)
        (by rw [hUn, hVn, hUs, hVs]
            exact fun hh => hneUV (str_append_right_cancel hh)),
      peek_adapter_set_self _ _ _ _ rfl]
  · rw [peek_adapter_set_self _ _ _ _ rfl]

/-- C5: an `AnalysisFailed` for a file during an update is non-fatal.  With
`env.analyze` returning `none` for the changed file `f` that still exists in
the source tree, `_visit_files_in_dir` completes, stores no new record for
`f`, and leaves `f`'s existing record untouched (the stale-record sweep only
removes files that are gone from the source); and `_aggregate_dir` then
succeeds and stores `TOTAL` / `TOTAL_TEST` / `TOTAL_NON_TEST` aggregates
that satisfy the aggregation invariant `dir_record_total` over exactly the
records that exist.  (Path hypotheses restrict to names the `_normalize_path`
regex leaves alone, which covers every path the updater builds.) -/
theorem C5_analysis_failure_nonfatal (env : Env) (σ : St) (dir f : String)
    (changed : List String) (pathsExcl : Option (String → Bool))
    (ignore : String → Bool) (v : String → Series) (files : List String)
    (hfail : env.analyze (pjoin dir f) = none)
    (hsrc : source_exists env.src dir f = true)
    (hmem : f ∈ changed)
    (hcleanc : ∀ g ∈ changed, normalize (pjoin dir g) = pjoin dir g)
    (hcleans : ∀ g ∈ changed,
      normalize (pjoin dir g ++ ".stats.yaml") = pjoin dir g ++ ".stats.yaml")
    (hcleanm : ∀ g ∈ changed,
      normalize (pjoin dir (g ++ ".methods.yaml"))
        = pjoin dir (g ++ ".methods.yaml"))
    (hlist : (py_stats_files
        (visit_files_in_dir env σ dir (some changed) pathsExcl ignore).1 dir).1
      = files)
    (hne : files ≠ [])
    (hv : ∀ g ∈ files,
      peek_stats (visit_files_in_dir env σ dir (some changed) pathsExcl ignore).1
        (pjoin dir g) = some (v g))
    (hct : ∀ n ∈ (["TOTAL", "TOTAL_TEST", "TOTAL_NON_TEST"] : List String),
        normalize (pjoin dir n) = pjoin dir n ∧
        normalize (pjoin dir n ++ ".stats.yaml") = pjoin dir n ++ ".stats.yaml") :
    peek_stats (visit_files_in_dir env σ dir (some changed) pathsExcl ignore).1
        (pjoin dir f)
      = peek_stats σ (pjoin dir f) ∧
    ∃ σ5 t,
      aggregate_dir env
          (visit_files_in_dir env σ dir (some changed) pathsExcl ignore).1 dir
        = some σ5 ∧
      dir_record_total env.is_test (files.map (fun g => (g, v g))) none = some t ∧
      peek_stats σ5 (pjoin dir "TOTAL") = some t.1 ∧
      peek_stats σ5 (pjoin dir "TOTAL_TEST") = some t.2.1 ∧
      peek_stats σ5 (pjoin dir "TOTAL_NON_TEST") = some t.2.2 :=
  ⟨visit_preserves_failed_record env σ dir f changed pathsExcl ignore
      hfail hsrc hmem hcleanc hcleans hcleanm,
   aggregate_dir_invariant env
      (visit_files_in_dir env σ dir (some changed) pathsExcl ignore).1 dir
      v files hlist hne hv hct⟩

/-- C5 witness: a directory `d` holding `x.py` (whose re-analysis fails, and
which already has a stored record) and `y.py` (whose analysis succeeds): the
update keeps `x.py`'s old record and the recomputed aggregates satisfy the
invariant. -/
theorem C5_analysis_failure_nonfatal_witness :
    peek_stats (visit_files_in_dir
        ⟨⟨["d/x.py", "d/y.py"], ["d"]⟩,
         (fun p => if p = "d/y.py" then some [("m", some 1)] else none),
         (fun _ => false)⟩
        (adapter_set St.empty "d/x.py" [("m", some 5)])
        "d" (some ["x.py", "y.py"]) none (fun _ => false)).1 (pjoin "d" "x.py")
      = peek_stats (adapter_set St.empty "d/x.py" [("m", some 5)])
          (pjoin "d" "x.py") ∧
    ∃ σ5 t,
      aggregate_dir
          ⟨⟨["d/x.py", "d/y.py"], ["d"]⟩,
           (fun p => if p = "d/y.py" then some [("m", some 1)] else none),
           (fun _ => false)⟩
          (visit_files_in_dir
            ⟨⟨["d/x.py", "d/y.py"], ["d"]⟩,
             (fun p => if p = "d/y.py" then some [("m", some 1)] else none),
             (fun _ => false)⟩
            (adapter_set St.empty "d/x.py" [("m", some 5)])
            "d" (some ["x.py", "y.py"]) none (fun _ => false)).1 "d"
        = some σ5 ∧
      dir_record_total (fun _ => false)
          ((["x.py", "y.py"] : List String).map (fun g =>
            (g, if g = "x.py" then ([("m", some 5)] : Series)
                else [("m", some 1)]))) none
        = some t ∧
      peek_stats σ5 (pjoin "d" "TOTAL") = some t.1 ∧
      peek_stats σ5 (pjoin "d" "TOTAL_TEST") = some t.2.1 ∧
      peek_stats σ5 (pjoin "d" "TOTAL_NON_TEST") = some t.2.2 :=
  C5_analysis_failure_nonfatal
    ⟨⟨["d/x.py", "d/y.py"], ["d"]⟩,
     (fun p => if p = "d/y.py" then some [("m", some 1)] else none),
     (fun _ => false)⟩
    (adapter_set St.empty "d/x.py" [("m", some 5)])
    "d" "x.py" ["x.py", "y.py"] none (fun _ => false)
    (fun g => if g = "x.py" then [("m", some 5)] else [("m", some 1)])
    ["x.py", "y.py"]
    (by decide) (by decide) (by decide)
    (by intro g hg; fin_cases hg <;> rfl)
    (by intro g hg; fin_cases hg <;> rfl)
    (by intro g hg; fin_cases hg <;> rfl)
    (by decide) (by decide)
    (by intro g hg; fin_cases hg <;> decide)
    (by intro n hn; fin_cases hn <;> exact ⟨rfl, rfl⟩)

end Gradon
